import Mathlib

/-!
# drone-github-release: release resolution and asset reconciliation

A shallow embedding of `main.go`.  The plugin talks to three collaborators that
are not part of the program: the GitHub client (`go-github`), the local file
system (`os.Open`, `filepath.Glob`) and the standard output.  They are modelled
by a `World σ`: a record of transition functions over an arbitrary state `σ`.
Every function of `main.go` becomes a state-passing Lean function that returns
its Go result, the ordered log of the calls it made (with the outcome of each
call) and the successor state.
-/

namespace GithubRelease

/-! ## Go standard library helpers used by the program -/

/-- Go `strings.HasSuffix(s, suffix)`:
`len(s) >= len(suffix) && s[len(s)-len(suffix):] == suffix`. -/
def HasSuffix (s suffix : String) : Bool :=
  decide (suffix.data.length ≤ s.data.length) &&
    (s.data.drop (s.data.length - suffix.data.length) == suffix.data)

/-- First loop of Go `path.Base`: strip the trailing slashes. -/
def stripTrailingSlashes (p : List Char) : List Char :=
  (p.reverse.dropWhile (fun c => c == '/')).reverse

/-- Second step of Go `path.Base`: keep what follows the last slash (the whole
path when it has no slash). -/
def afterLastSlash (p : List Char) : List Char :=
  (p.reverse.takeWhile (fun c => c != '/')).reverse

/-- Go `path.Base`. -/
def pathBase (p : String) : String :=
  if p.data = [] then "."
  else
    let q := afterLastSlash (stripTrailingSlashes p.data)
    if q = [] then "/" else String.mk q

/-- Go `filepath.Base` on a platform whose separator is the slash and whose
volume names are empty (the plugin runs in a Linux container): the same
function as `path.Base`. -/
def filepathBase (p : String) : String := pathBase p

/-! ## Data model -/

/-- The fields of `drone.Repo` the program reads. -/
structure Repo where
  Owner : String
  Name : String
  deriving DecidableEq, Repr

/-- The fields of `drone.Build` the program reads. -/
structure Build where
  Event : String
  Ref : String
  deriving DecidableEq, Repr

/-- The plugin parameters (`Params` in `main.go`). -/
structure Params where
  BaseUrl : String
  UploadUrl : String
  APIKey : String
  Files : List String
  deriving DecidableEq, Repr

/-- A `github.RepositoryRelease` as returned by the service.  In Go the fields
`ID` and `TagName` are pointers, and `main` dereferences `ID` without a check;
the service populates both for every release it returns, and the record holds
the values they point to.  The pointer to the release itself may be nil and is an
`Option` wherever the program receives one. -/
structure RepositoryRelease where
  ID : Int
  TagName : String
  deriving DecidableEq, Repr

/-- A `github.ReleaseAsset` as returned by a listing.  In Go the fields `ID` and
`Name` are pointers, which `appendFiles` dereferences without a check; the
service populates both for every listed asset, and the record holds the values
they point to. -/
structure ReleaseAsset where
  ID : Int
  Name : String
  deriving DecidableEq, Repr

/-- The configured `github.Client`: the two endpoints and the OAuth token. -/
structure Client where
  BaseURL : String
  UploadURL : String
  AccessToken : String
  deriving DecidableEq, Repr

/-- The calls the program makes to its collaborators. -/
inductive Call where
  | getReleaseByTag (owner repo tag : String)
  | createRelease (owner repo tagName : String)
  | listReleaseAssets (owner repo : String) (id : Int)
  | deleteReleaseAsset (owner repo : String) (assetID : Int)
  | uploadReleaseAsset (owner repo : String) (id : Int) (name file : String)
  | osOpen (file : String)
  | glob (pattern : String)
  | urlParse (raw : String)
  | print (text : String)
  deriving DecidableEq, Repr

/-- The calls that reach the remote service. -/
def Call.isRemote : Call → Bool
  | .getReleaseByTag _ _ _ => true
  | .createRelease _ _ _ => true
  | .listReleaseAssets _ _ _ => true
  | .deleteReleaseAsset _ _ _ => true
  | .uploadReleaseAsset _ _ _ _ _ => true
  | _ => false

/-- The create-release calls. -/
def Call.isCreate : Call → Bool
  | .createRelease _ _ _ => true
  | _ => false

/-- The delete-asset calls. -/
def Call.isDelete : Call → Bool
  | .deleteReleaseAsset _ _ _ => true
  | _ => false

/-- The upload-asset calls. -/
def Call.isUpload : Call → Bool
  | .uploadReleaseAsset _ _ _ _ _ => true
  | _ => false

/-- The file-open calls. -/
def Call.isOpen : Call → Bool
  | .osOpen _ => true
  | _ => false

/-- The calls of the file loop that can fail: the opens, deletes and uploads. -/
def Call.isFileStep (k : Call) : Bool := k.isOpen || k.isDelete || k.isUpload

/-- The calls made inside the file loop of `appendFiles`. -/
def Call.isLoopCall : Call → Bool
  | .osOpen _ => true
  | .deleteReleaseAsset _ _ _ => true
  | .uploadReleaseAsset _ _ _ _ _ => true
  | .print _ => true
  | _ => false

/-- The calls that stay on the machine of the build, outside the file loop. -/
def Call.isLocal : Call → Bool
  | .glob _ => true
  | .urlParse _ => true
  | .print _ => true
  | _ => false

/-- One line of the log: the call, whether it returned without error, and the
iteration of the file loop of `appendFiles` that made it (position in the file
list and the file), `none` outside that loop. -/
structure Entry where
  iter : Option (Nat × String)
  call : Call
  ok : Bool
  deriving DecidableEq, Repr

/-- The answer of a collaborator: a value, whether `err != nil`, and the
successor state. -/
structure Resp (σ α : Type) where
  val : α
  err : Bool
  st : σ

/-- The collaborators of the program over a state `σ`.  `glob` answers `none`
for a pattern error; `osOpen` and `urlParse` answer whether the call returned
without error. -/
structure World (σ : Type) where
  glob : σ → String → Option (List String)
  urlParse : String → Bool
  osOpen : σ → String → Bool
  getReleaseByTag : σ → Client → String → String → String →
    Resp σ (Option RepositoryRelease)
  createRelease : σ → Client → String → String → String →
    Resp σ (Option RepositoryRelease)
  listReleaseAssets : σ → Client → String → String → Int →
    Resp σ (List ReleaseAsset)
  deleteReleaseAsset : σ → Client → String → String → Int → Resp σ Unit
  uploadReleaseAsset : σ → Client → String → String → Int → String → String →
    Resp σ Unit

/-- The result of running a function of the program: its Go return value, the
log of the calls it made, and the state it leaves. -/
structure Run (σ α : Type) where
  val : α
  log : List Entry
  st : σ

/-- The remote calls of a log, in order. -/
def remoteCalls (log : List Entry) : List Call :=
  (log.map Entry.call).filter Call.isRemote

/-- The delete calls the inner loop of `appendFiles` makes for a file when none
fails: one for each listed asset named like the file, in listing order. -/
def expectedDeletes (owner repo : String) (assets : List ReleaseAsset) (file : String) :
    List Call :=
  (assets.filter (fun a => decide (a.Name = pathBase file))).map
    (fun a => Call.deleteReleaseAsset owner repo a.ID)

/-- The remote calls `appendFiles` makes for one file when none fails: the
deletes, then the upload under the base name of the file. -/
def expectedFileCalls (owner repo : String) (id : Int) (assets : List ReleaseAsset)
    (file : String) : List Call :=
  expectedDeletes owner repo assets file ++
    [Call.uploadReleaseAsset owner repo id (pathBase file) file]

/-! ## The functions of `main.go` -/

variable {σ : Type}

/-- Function `retrieveRelease` of `main.go`: the pair is `(release, error)`. -/
def retrieveRelease (w : World σ) (client : Client) (owner repo tag : String) (s : σ) :
    Run σ (Option RepositoryRelease × Option String) :=
  let r := w.getReleaseByTag s client owner repo tag
  if r.err then
    ⟨(none, some "Failed to retrieve release"),
      [⟨none, .getReleaseByTag owner repo tag, false⟩], r.st⟩
  else
    ⟨(r.val, none),
      [⟨none, .getReleaseByTag owner repo tag, true⟩,
       ⟨none, .print ("Successfully retrieved " ++ tag ++ " release\n"), true⟩], r.st⟩

/-- Function `createRelease` of `main.go`: the payload carries the tag name. -/
def createRelease (w : World σ) (client : Client) (owner repo tag : String) (s : σ) :
    Run σ (Option RepositoryRelease × Option String) :=
  let r := w.createRelease s client owner repo tag
  if r.err then
    ⟨(none, some "Failed to create release"),
      [⟨none, .createRelease owner repo tag, false⟩], r.st⟩
  else
    ⟨(r.val, none),
      [⟨none, .createRelease owner repo tag, true⟩,
       ⟨none, .print ("Successfully created " ++ tag ++ " release\n"), true⟩], r.st⟩

/-- Function `prepareRelease` of `main.go`. -/
def prepareRelease (w : World σ) (client : Client) (owner repo tag : String) (s : σ) :
    Run σ (Option RepositoryRelease × Option String) :=
  let r1 := retrieveRelease w client owner repo tag s
  match r1.val with
  | (_, some releaseErr) => ⟨(none, some releaseErr), r1.log, r1.st⟩
  | (some release, none) => ⟨(some release, none), r1.log, r1.st⟩
  | (none, none) =>
    let r2 := createRelease w client owner repo tag r1.st
    match r2.val with
    | (_, some releaseErr) => ⟨(none, some releaseErr), r1.log ++ r2.log, r2.st⟩
    | (some release, none) => ⟨(some release, none), r1.log ++ r2.log, r2.st⟩
    | (none, none) =>
      ⟨(none, some "Failed to retrieve or create a release"), r1.log ++ r2.log, r2.st⟩

/-- The inner loop of `appendFiles` (`for _, asset := range assets`), run for
the file at position `i`: the value is the error returned from inside the loop,
`none` when the loop runs to its end. -/
def deleteMatching (w : World σ) (client : Client) (owner repo : String)
    (i : Nat) (file : String) : List ReleaseAsset → σ → Run σ (Option String)
  | [], s => ⟨none, [], s⟩
  | asset :: rest, s =>
    if asset.Name = pathBase file then
      let r := w.deleteReleaseAsset s client owner repo asset.ID
      if r.err then
        ⟨some ("Failed to delete " ++ file ++ " artifact"),
          [⟨some (i, file), .deleteReleaseAsset owner repo asset.ID, false⟩], r.st⟩
      else
        let k := deleteMatching w client owner repo i file rest r.st
        ⟨k.val,
          ⟨some (i, file), .deleteReleaseAsset owner repo asset.ID, true⟩ ::
          ⟨some (i, file),
            .print ("Successfully deleted old " ++ asset.Name ++ " artifact\n"), true⟩ ::
          k.log, k.st⟩
    else deleteMatching w client owner repo i file rest s

/-- The body of the file loop of `appendFiles` for the file at position `i`:
open, delete the listed assets of the same name, upload. -/
def processFile (w : World σ) (client : Client) (owner repo : String) (id : Int)
    (assets : List ReleaseAsset) (i : Nat) (file : String) (s : σ) :
    Run σ (Option String) :=
  if w.osOpen s file then
    let d := deleteMatching w client owner repo i file assets s
    match d.val with
    | some e => ⟨some e, ⟨some (i, file), .osOpen file, true⟩ :: d.log, d.st⟩
    | none =>
      let u := w.uploadReleaseAsset d.st client owner repo id (pathBase file) file
      if u.err then
        ⟨some ("Failed to upload " ++ file ++ " artifact"),
          ⟨some (i, file), .osOpen file, true⟩ :: d.log ++
            [⟨some (i, file),
              .uploadReleaseAsset owner repo id (pathBase file) file, false⟩], u.st⟩
      else
        ⟨none,
          ⟨some (i, file), .osOpen file, true⟩ :: d.log ++
            [⟨some (i, file),
               .uploadReleaseAsset owner repo id (pathBase file) file, true⟩,
             ⟨some (i, file),
               .print ("Successfully uploaded " ++ file ++ " artifact\n"), true⟩], u.st⟩
  else
    ⟨some ("Failed to read " ++ file ++ " artifact"),
      [⟨some (i, file), .osOpen file, false⟩], s⟩

/-- The file loop of `appendFiles` (`for _, file := range files`), from
position `i` on. -/
def appendFilesLoop (w : World σ) (client : Client) (owner repo : String) (id : Int)
    (assets : List ReleaseAsset) : Nat → List String → σ → Run σ (Option String)
  | _, [], s => ⟨none, [], s⟩
  | i, file :: rest, s =>
    let p := processFile w client owner repo id assets i file s
    match p.val with
    | some e => ⟨some e, p.log, p.st⟩
    | none =>
      let k := appendFilesLoop w client owner repo id assets (i + 1) rest p.st
      ⟨k.val, p.log ++ k.log, k.st⟩

/-- Function `appendFiles` of `main.go`: the value is the returned error. -/
def appendFiles (w : World σ) (client : Client) (owner repo : String) (id : Int)
    (files : List String) (s : σ) : Run σ (Option String) :=
  let r := w.listReleaseAssets s client owner repo id
  if r.err then
    ⟨some "Failed to fetch existing assets",
      [⟨none, .listReleaseAssets owner repo id, false⟩], r.st⟩
  else
    let k := appendFilesLoop w client owner repo id r.val 0 files r.st
    ⟨k.val, ⟨none, .listReleaseAssets owner repo id, true⟩ :: k.log, k.st⟩

/-- The glob loop of `main`: `none` when a pattern fails, with the pattern. -/
def globAll (w : World σ) (s : σ) : List String → List String → Except String (List String)
  | [], files => .ok files
  | g :: rest, files =>
    match w.glob s g with
    | none => .error g
    | some globed => globAll w s rest (files ++ globed)

/-- The log of the glob loop of `main`: one entry for each pattern tried. -/
def globLog (w : World σ) (s : σ) : List String → List Entry
  | [] => []
  | g :: rest =>
    match w.glob s g with
    | none => [⟨none, .glob g, false⟩]
    | some _ => ⟨none, .glob g, true⟩ :: globLog w s rest

/-- The base endpoint after lines 45-51 of `main`. -/
def effectiveBaseUrl (v : Params) : String :=
  if v.BaseUrl.length = 0 then "https://api.github.com/"
  else if !HasSuffix v.BaseUrl "/" then v.BaseUrl ++ "/" else v.BaseUrl

/-- The upload endpoint after lines 53-59 of `main`. -/
def effectiveUploadUrl (v : Params) : String :=
  if v.UploadUrl.length = 0 then "https://uploads.github.com/"
  else if !HasSuffix v.UploadUrl "/" then v.UploadUrl ++ "/" else v.UploadUrl

/-- The client `main` configures at lines 103-114 from the normalized
parameters. -/
def mainClient (v : Params) : Client :=
  ⟨effectiveBaseUrl v, effectiveUploadUrl v, v.APIKey⟩

/-- The entries `main` logs before the lookup when it reaches it. -/
def mainPrelude (w : World σ) (v : Params) (s : σ) : List Entry :=
  globLog w s v.Files ++
    [⟨none, .urlParse (effectiveBaseUrl v), true⟩,
     ⟨none, .urlParse (effectiveUploadUrl v), true⟩]

/-- How the process ends: `os.Exit(code)` (falling off the end of `main` is
status 0) or a nil-pointer panic. -/
inductive Exit where
  | status (code : Nat)
  | nilPanic
  deriving DecidableEq, Repr

/-- The result of `main`: how it ended, its log, the final state, and the
client it configured (`none` when it ended before line 112). -/
structure MainRun (σ : Type) where
  exit : Exit
  log : List Entry
  st : σ
  client : Option Client

/-- Function `main` of `main.go`, after `plugin.MustParse` has filled the repo,
the build and the parameters. -/
def main (w : World σ) (r : Repo) (b : Build) (v : Params) (s : σ) : MainRun σ :=
  if b.Event ≠ "tag" then
    ⟨.status 0,
      [⟨none, .print "The GitHub Release plugin is only available for tags\n", true⟩],
      s, none⟩
  else
    let v1 : Params := ⟨effectiveBaseUrl v, v.UploadUrl, v.APIKey, v.Files⟩
    let v2 : Params := ⟨v1.BaseUrl, effectiveUploadUrl v1, v1.APIKey, v1.Files⟩
    if v2.APIKey.length = 0 then
      ⟨.status 1, [⟨none, .print "You must provide an API key\n", true⟩], s, none⟩
    else
      match globAll w s v2.Files [] with
      | .error g =>
        ⟨.status 1,
          globLog w s v2.Files ++ [⟨none, .print ("Failed to glob " ++ g ++ "\n"), true⟩],
          s, none⟩
      | .ok files =>
        if !w.urlParse v2.BaseUrl then
          ⟨.status 1,
            globLog w s v2.Files ++
              [⟨none, .urlParse v2.BaseUrl, false⟩,
               ⟨none, .print "Failed to parse base URL\n", true⟩], s, none⟩
        else if !w.urlParse v2.UploadUrl then
          ⟨.status 1,
            globLog w s v2.Files ++
              [⟨none, .urlParse v2.BaseUrl, true⟩,
               ⟨none, .urlParse v2.UploadUrl, false⟩,
               ⟨none, .print "Failed to parse upload URL\n", true⟩], s, none⟩
        else
          let client : Client := ⟨v2.BaseUrl, v2.UploadUrl, v2.APIKey⟩
          let pre : List Entry :=
            globLog w s v2.Files ++
              [⟨none, .urlParse v2.BaseUrl, true⟩, ⟨none, .urlParse v2.UploadUrl, true⟩]
          let rr := retrieveRelease w client r.Owner r.Name (filepathBase b.Ref) s
          match rr.val with
          | (_, some releaseErr) =>
            ⟨.status 1, pre ++ rr.log ++ [⟨none, .print (releaseErr ++ "\n"), true⟩],
              rr.st, some client⟩
          | (none, none) => ⟨.nilPanic, pre ++ rr.log, rr.st, some client⟩
          | (some release, none) =>
            let a := appendFiles w client r.Owner r.Name release.ID files rr.st
            match a.val with
            | some uploadErr =>
              ⟨.status 1, pre ++ rr.log ++ a.log ++ [⟨none, .print (uploadErr ++ "\n"), true⟩],
                a.st, some client⟩
            | none => ⟨.status 0, pre ++ rr.log ++ a.log, a.st, some client⟩

/-! ## A model of the release

The state of one release: its assets and the identifier the service gives to
the next upload.  Listing returns the assets, delete removes the asset with the
given identifier, upload adds one asset with the given name under a fresh
identifier.  Lookup by tag answers with the existing release, or with an error
when there is none, and creation answers with a new release. -/

/-- The state of the modelled release. -/
structure ReleaseState where
  assets : List ReleaseAsset
  nextID : Int
  deriving DecidableEq, Repr

/-- An identifier above every identifier in use. -/
def freshID (assets : List ReleaseAsset) : Int :=
  (assets.map ReleaseAsset.ID).foldr max 0 + 1

/-- The release that holds the given assets. -/
def initRelease (assets : List ReleaseAsset) : ReleaseState := ⟨assets, freshID assets⟩

/-- The names of the assets of the release, in order. -/
def ReleaseState.names (s : ReleaseState) : List String := s.assets.map ReleaseAsset.Name

/-- The modelled service, over a file system in which the files satisfying
`readable` can be opened and every pattern matches itself; `existing` is the
release the tag has, if any. -/
def releaseWorld (readable : String → Bool) (existing : Option RepositoryRelease) :
    World ReleaseState :=
  ⟨fun _ g => some [g],
   fun _ => true,
   fun _ f => readable f,
   fun s _ _ _ _ => ⟨existing, existing.isNone, s⟩,
   fun s _ _ _ tag => ⟨some ⟨1, tag⟩, false, s⟩,
   fun s _ _ _ _ => ⟨s.assets, false, s⟩,
   fun s _ _ _ assetID =>
     ⟨(), false, ⟨s.assets.filter (fun a => decide (a.ID ≠ assetID)), s.nextID⟩⟩,
   fun s _ _ _ _ name _ =>
     ⟨(), false, ⟨s.assets ++ [⟨s.nextID, name⟩], s.nextID + 1⟩⟩⟩

/-- The identifiers of the listed assets named like the file: those the inner
loop of `appendFiles` deletes for it. -/
def matchingIDs (assets : List ReleaseAsset) (file : String) : List Int :=
  (assets.filter (fun a => decide (a.Name = pathBase file))).map ReleaseAsset.ID

/-- The effect of one successful iteration of the file loop on the modelled
release, for a given listing. -/
def reconcileStep (listing : List ReleaseAsset) (s : ReleaseState) (file : String) :
    ReleaseState :=
  ⟨s.assets.filter (fun a => decide (a.ID ∉ matchingIDs listing file)) ++
    [⟨s.nextID, pathBase file⟩], s.nextID + 1⟩

/-- The assets a successful run uploads, the first under identifier `n`. -/
def newAssets : Int → List String → List ReleaseAsset
  | _, [] => []
  | n, f :: rest => ⟨n, pathBase f⟩ :: newAssets (n + 1) rest

/-- A client on the default endpoints. -/
def demoClient : Client :=
  ⟨"https://api.github.com/", "https://uploads.github.com/", "secret"⟩

/-- A release that already holds `app.tar.gz` and an unrelated asset. -/
def demoAssets : List ReleaseAsset := [⟨11, "app.tar.gz"⟩, ⟨12, "notes.txt"⟩]

/-- The two artifacts of the scenario of the specification. -/
def demoFiles : List String := ["dist/app.tar.gz", "dist/app.sha256"]

/-- The modelled world in which every file is readable and the tag has release 1. -/
def demoWorld : World ReleaseState := releaseWorld (fun _ => true) (some ⟨1, "v1.2.0"⟩)

/-- The modelled world in which `dist/app.tar.gz` cannot be opened. -/
def lockedWorld : World ReleaseState :=
  releaseWorld (fun f => f != "dist/app.tar.gz") (some ⟨1, "v1.2.0"⟩)

/-- The world in which the tag has no release: lookup fails, creation would
succeed. -/
def freshTagWorld : World ReleaseState := releaseWorld (fun _ => true) none

/-- The endpoint ends with a slash: its last character is the slash. -/
def endsWithSlash (u : String) : Prop := u.data.getLast? = some '/'

instance (u : String) : Decidable (endsWithSlash u) := by
  unfold endsWithSlash; infer_instance

/-! ## Facts about the endpoints -/

theorem drop_last_eq_singleton (l : List Char) (x : Char) :
    (1 ≤ l.length ∧ l.drop (l.length - 1) = [x]) ↔ l.getLast? = some x := by
  rcases List.eq_nil_or_concat l with h | ⟨init, y, h⟩
  · subst h; simp
  · subst h
    have h1 : (init ++ [y]).length - 1 = init.length := by simp
    rw [List.concat_eq_append, h1, List.drop_left]
    simp

theorem HasSuffix_slash (u : String) : HasSuffix u "/" = true ↔ endsWithSlash u := by
  have h1 : ("/" : String).data = ['/'] := rfl
  unfold HasSuffix endsWithSlash
  rw [h1, ← drop_last_eq_singleton]
  simp

/-! ## Facts about the inner loop -/

section Lemmas

variable (w : World σ) (c : Client) (o r : String)

theorem deleteMatching_iter (i : Nat) (f : String) (assets : List ReleaseAsset) (s : σ) :
    ∀ e ∈ (deleteMatching w c o r i f assets s).log, e.iter = some (i, f) := by
  induction assets generalizing s with
  | nil => intro e he; simp [deleteMatching] at he
  | cons a rest ih =>
    intro e he
    simp only [deleteMatching] at he
    split_ifs at he with h1 h2
    · simp at he; subst he; rfl
    · simp only [List.mem_cons] at he
      rcases he with h | h | h
      · subst h; rfl
      · subst h; rfl
      · exact ih _ e h
    · exact ih _ e he

theorem deleteMatching_none_ok (i : Nat) (f : String) (assets : List ReleaseAsset) (s : σ)
    (h : (deleteMatching w c o r i f assets s).val = none) :
    ∀ e ∈ (deleteMatching w c o r i f assets s).log, e.ok = true := by
  induction assets generalizing s with
  | nil => intro e he; simp [deleteMatching] at he
  | cons a rest ih =>
    intro e he
    simp only [deleteMatching] at he h
    split_ifs at he h with h1 h2
    · simp only [List.mem_cons] at he
      rcases he with h3 | h3 | h3
      · subst h3; rfl
      · subst h3; rfl
      · exact ih _ h e h3
    · exact ih _ h e he

theorem deleteMatching_some (i : Nat) (f : String) (assets : List ReleaseAsset) (s : σ)
    (m : String) (h : (deleteMatching w c o r i f assets s).val = some m) :
    m = "Failed to delete " ++ f ++ " artifact" ∧
    ∃ init last, (deleteMatching w c o r i f assets s).log = init ++ [last] ∧
      last.ok = false ∧ last.call.isDelete = true ∧ ∀ e ∈ init, e.ok = true := by
  induction assets generalizing s with
  | nil => simp [deleteMatching] at h
  | cons a rest ih =>
    simp only [deleteMatching] at h ⊢
    split_ifs at h ⊢ with h1 h2
    · simp only [Option.some.injEq] at h
      refine ⟨h.symm, [], _, rfl, rfl, rfl, ?_⟩
      intro e he; simp at he
    · obtain ⟨hm, init, last, hlog, hlast, hdel, hinit⟩ := ih _ h
      refine ⟨hm, ⟨some (i, f), Call.deleteReleaseAsset o r a.ID, true⟩ ::
        ⟨some (i, f), Call.print ("Successfully deleted old " ++ a.Name ++ " artifact\n"),
          true⟩ :: init, last, ?_, hlast, hdel, ?_⟩
      · simp only [hlog, List.cons_append]
      · intro e he
        simp only [List.mem_cons] at he
        rcases he with h3 | h3 | h3
        · subst h3; rfl
        · subst h3; rfl
        · exact hinit e h3
    · exact ih _ h

theorem deleteMatching_remote (i : Nat) (f : String) (assets : List ReleaseAsset) (s : σ)
    (h : (deleteMatching w c o r i f assets s).val = none) :
    remoteCalls (deleteMatching w c o r i f assets s).log = expectedDeletes o r assets f := by
  induction assets generalizing s with
  | nil => simp [deleteMatching, remoteCalls, expectedDeletes]
  | cons a rest ih =>
    simp only [deleteMatching] at h ⊢
    split_ifs at h ⊢ with h1 h2
    · have := ih _ h
      simp only [remoteCalls, expectedDeletes] at this ⊢
      simp [List.filter_cons, h1, Call.isRemote, this]
    · have := ih _ h
      simp only [remoteCalls, expectedDeletes] at this ⊢
      simp [List.filter_cons, h1, this]

theorem deleteMatching_target (i : Nat) (f : String) (assets : List ReleaseAsset) (s : σ) :
    ∀ e ∈ (deleteMatching w c o r i f assets s).log, e.call.isDelete = true →
      ∃ a ∈ assets, a.Name = pathBase f ∧ e.call = Call.deleteReleaseAsset o r a.ID := by
  induction assets generalizing s with
  | nil => intro e he; simp [deleteMatching] at he
  | cons a rest ih =>
    intro e he hd
    simp only [deleteMatching] at he
    split_ifs at he with h1 h2
    · simp at he; subst he
      exact ⟨a, List.mem_cons_self _ _, h1, rfl⟩
    · simp only [List.mem_cons] at he
      rcases he with h3 | h3 | h3
      · subst h3; exact ⟨a, List.mem_cons_self _ _, h1, rfl⟩
      · subst h3; simp [Call.isDelete] at hd
      · obtain ⟨b, hb, hn, hc⟩ := ih _ e h3 hd
        exact ⟨b, List.mem_cons_of_mem _ hb, hn, hc⟩
    · obtain ⟨b, hb, hn, hc⟩ := ih _ e he hd
      exact ⟨b, List.mem_cons_of_mem _ hb, hn, hc⟩

theorem deleteMatching_kind (i : Nat) (f : String) (assets : List ReleaseAsset) (s : σ) :
    ∀ e ∈ (deleteMatching w c o r i f assets s).log,
      e.call.isOpen = false ∧ e.call.isUpload = false := by
  induction assets generalizing s with
  | nil => intro e he; simp [deleteMatching] at he
  | cons a rest ih =>
    intro e he
    simp only [deleteMatching] at he
    split_ifs at he with h1 h2
    · simp at he; subst he; exact ⟨rfl, rfl⟩
    · simp only [List.mem_cons] at he
      rcases he with h3 | h3 | h3
      · subst h3; exact ⟨rfl, rfl⟩
      · subst h3; exact ⟨rfl, rfl⟩
      · exact ih _ e h3
    · exact ih _ e he

/-! ## Facts about the body of the file loop -/

/-- The four ways the body of the file loop can end. -/
theorem processFile_cases (id : Int) (assets : List ReleaseAsset) (i : Nat) (f : String)
    (s : σ) :
    (w.osOpen s f = false ∧
      processFile w c o r id assets i f s =
        ⟨some ("Failed to read " ++ f ++ " artifact"),
          [⟨some (i, f), .osOpen f, false⟩], s⟩) ∨
    (w.osOpen s f = true ∧ ∃ m, (deleteMatching w c o r i f assets s).val = some m ∧
      processFile w c o r id assets i f s =
        ⟨some m, ⟨some (i, f), .osOpen f, true⟩ :: (deleteMatching w c o r i f assets s).log,
          (deleteMatching w c o r i f assets s).st⟩) ∨
    (w.osOpen s f = true ∧ (deleteMatching w c o r i f assets s).val = none ∧
      (w.uploadReleaseAsset (deleteMatching w c o r i f assets s).st c o r id
        (pathBase f) f).err = true ∧
      processFile w c o r id assets i f s =
        ⟨some ("Failed to upload " ++ f ++ " artifact"),
          ⟨some (i, f), .osOpen f, true⟩ :: (deleteMatching w c o r i f assets s).log ++
            [⟨some (i, f), .uploadReleaseAsset o r id (pathBase f) f, false⟩],
          (w.uploadReleaseAsset (deleteMatching w c o r i f assets s).st c o r id
            (pathBase f) f).st⟩) ∨
    (w.osOpen s f = true ∧ (deleteMatching w c o r i f assets s).val = none ∧
      (w.uploadReleaseAsset (deleteMatching w c o r i f assets s).st c o r id
        (pathBase f) f).err = false ∧
      processFile w c o r id assets i f s =
        ⟨none,
          ⟨some (i, f), .osOpen f, true⟩ :: (deleteMatching w c o r i f assets s).log ++
            [⟨some (i, f), .uploadReleaseAsset o r id (pathBase f) f, true⟩,
             ⟨some (i, f), .print ("Successfully uploaded " ++ f ++ " artifact\n"), true⟩],
          (w.uploadReleaseAsset (deleteMatching w c o r i f assets s).st c o r id
            (pathBase f) f).st⟩) := by
  unfold processFile
  cases ho : w.osOpen s f with
  | false => left; simp
  | true =>
    right
    cases hd : (deleteMatching w c o r i f assets s).val with
    | some m => left; simp [hd]
    | none =>
      right
      cases hu : (w.uploadReleaseAsset (deleteMatching w c o r i f assets s).st c o r id
        (pathBase f) f).err with
      | true => left; simp [hd, hu]
      | false => right; simp [hd, hu]

theorem processFile_iter (id : Int) (assets : List ReleaseAsset) (i : Nat) (f : String)
    (s : σ) : ∀ e ∈ (processFile w c o r id assets i f s).log, e.iter = some (i, f) := by
  have hd := deleteMatching_iter w c o r i f assets s
  intro e he
  rcases processFile_cases w c o r id assets i f s with
    ⟨-, h⟩ | ⟨-, m, -, h⟩ | ⟨-, -, -, h⟩ | ⟨-, -, -, h⟩ <;> rw [h] at he <;>
    simp only [List.mem_cons, List.mem_append, List.mem_singleton, List.not_mem_nil,
      or_false, or_assoc] at he
  · subst he; rfl
  · rcases he with h1 | h1
    · subst h1; rfl
    · exact hd e h1
  · rcases he with h1 | h1 | h1
    · subst h1; rfl
    · exact hd e h1
    · subst h1; rfl
  · rcases he with h1 | h1 | h1 | h1
    · subst h1; rfl
    · exact hd e h1
    · subst h1; rfl
    · subst h1; rfl

theorem processFile_none_ok (id : Int) (assets : List ReleaseAsset) (i : Nat) (f : String)
    (s : σ) (hv : (processFile w c o r id assets i f s).val = none) :
    ∀ e ∈ (processFile w c o r id assets i f s).log, e.ok = true := by
  intro e he
  rcases processFile_cases w c o r id assets i f s with
    ⟨-, h⟩ | ⟨-, m, -, h⟩ | ⟨-, -, -, h⟩ | ⟨-, hd, -, h⟩ <;> rw [h] at he hv
  · simp at hv
  · simp at hv
  · simp at hv
  · simp only [List.mem_cons, List.mem_append, List.mem_singleton, List.not_mem_nil,
      or_false, or_assoc] at he
    rcases he with h1 | h1 | h1 | h1
    · subst h1; rfl
    · exact deleteMatching_none_ok w c o r i f assets s hd e h1
    · subst h1; rfl
    · subst h1; rfl

theorem processFile_some (id : Int) (assets : List ReleaseAsset) (i : Nat) (f : String)
    (s : σ) (m : String) (hv : (processFile w c o r id assets i f s).val = some m) :
    ∃ init last, (processFile w c o r id assets i f s).log = init ++ [last] ∧
      last.ok = false ∧ ∀ e ∈ init, e.ok = true := by
  rcases processFile_cases w c o r id assets i f s with
    ⟨-, h⟩ | ⟨-, m1, hd, h⟩ | ⟨-, hd, -, h⟩ | ⟨-, hd, -, h⟩ <;> rw [h] at hv ⊢
  · exact ⟨[], _, rfl, rfl, by simp⟩
  · obtain ⟨-, init, last, hlog, hlast, -, hinit⟩ :=
      deleteMatching_some w c o r i f assets s m1 hd
    refine ⟨⟨some (i, f), .osOpen f, true⟩ :: init, last, ?_, hlast, ?_⟩
    · simp [hlog]
    · intro e he
      simp only [List.mem_cons] at he
      rcases he with h1 | h1
      · subst h1; rfl
      · exact hinit e h1
  · refine ⟨⟨some (i, f), .osOpen f, true⟩ :: (deleteMatching w c o r i f assets s).log,
      _, rfl, rfl, ?_⟩
    intro e he
    simp only [List.mem_cons] at he
    rcases he with h1 | h1
    · subst h1; rfl
    · exact deleteMatching_none_ok w c o r i f assets s hd e h1
  · simp at hv

theorem processFile_remote (id : Int) (assets : List ReleaseAsset) (i : Nat) (f : String)
    (s : σ) (hv : (processFile w c o r id assets i f s).val = none) :
    remoteCalls (processFile w c o r id assets i f s).log =
      expectedDeletes o r assets f ++ [Call.uploadReleaseAsset o r id (pathBase f) f] := by
  rcases processFile_cases w c o r id assets i f s with
    ⟨-, h⟩ | ⟨-, m, -, h⟩ | ⟨-, -, -, h⟩ | ⟨-, hd, -, h⟩ <;> rw [h] at hv ⊢
  · simp at hv
  · simp at hv
  · simp at hv
  · have := deleteMatching_remote w c o r i f assets s hd
    simp only [remoteCalls] at this ⊢
    simp [List.filter_cons, Call.isRemote, this]

theorem processFile_target (id : Int) (assets : List ReleaseAsset) (i : Nat) (f : String)
    (s : σ) : ∀ e ∈ (processFile w c o r id assets i f s).log, e.call.isDelete = true →
      ∃ a ∈ assets, a.Name = pathBase f ∧ e.call = Call.deleteReleaseAsset o r a.ID := by
  have hd := deleteMatching_target w c o r i f assets s
  intro e he hdel
  rcases processFile_cases w c o r id assets i f s with
    ⟨-, h⟩ | ⟨-, m, -, h⟩ | ⟨-, -, -, h⟩ | ⟨-, -, -, h⟩ <;> rw [h] at he <;>
    simp only [List.mem_cons, List.mem_append, List.mem_singleton, List.not_mem_nil,
      or_false, or_assoc] at he
  · subst he; simp [Call.isDelete] at hdel
  · rcases he with h1 | h1
    · subst h1; simp [Call.isDelete] at hdel
    · exact hd e h1 hdel
  · rcases he with h1 | h1 | h1
    · subst h1; simp [Call.isDelete] at hdel
    · exact hd e h1 hdel
    · subst h1; simp [Call.isDelete] at hdel
  · rcases he with h1 | h1 | h1 | h1
    · subst h1; simp [Call.isDelete] at hdel
    · exact hd e h1 hdel
    · subst h1; simp [Call.isDelete] at hdel
    · subst h1; simp [Call.isDelete] at hdel

/-- A failed open is the only entry of its iteration, and the iteration returns
the read error. -/
theorem processFile_open_fail (id : Int) (assets : List ReleaseAsset) (i : Nat) (f : String)
    (s : σ) (e : Entry) (he : e ∈ (processFile w c o r id assets i f s).log)
    (hopen : e.call.isOpen = true) (hfail : e.ok = false) :
    (processFile w c o r id assets i f s).val = some ("Failed to read " ++ f ++ " artifact") ∧
    (processFile w c o r id assets i f s).log = [e] := by
  have hk := deleteMatching_kind w c o r i f assets s
  rcases processFile_cases w c o r id assets i f s with
    ⟨-, h⟩ | ⟨-, m, -, h⟩ | ⟨-, -, -, h⟩ | ⟨-, -, -, h⟩ <;> rw [h] at he ⊢ <;>
    simp only [List.mem_cons, List.mem_append, List.mem_singleton, List.not_mem_nil,
      or_false, or_assoc] at he
  · subst he; exact ⟨rfl, rfl⟩
  · rcases he with h1 | h1
    · subst h1; simp at hfail
    · have := (hk e h1).1; simp [this] at hopen
  · rcases he with h1 | h1 | h1
    · subst h1; simp at hfail
    · have := (hk e h1).1; simp [this] at hopen
    · subst h1; simp [Call.isOpen] at hopen
  · rcases he with h1 | h1 | h1 | h1
    · subst h1; simp at hfail
    · have := (hk e h1).1; simp [this] at hopen
    · subst h1; simp at hfail
    · subst h1; simp at hfail

/-! ## Facts about the file loop -/

/-- The two ways one turn of the file loop continues. -/
theorem appendFilesLoop_cons (id : Int) (assets : List ReleaseAsset) (i : Nat) (f : String)
    (rest : List String) (s : σ) :
    (∃ m, (processFile w c o r id assets i f s).val = some m ∧
      appendFilesLoop w c o r id assets i (f :: rest) s =
        ⟨some m, (processFile w c o r id assets i f s).log,
          (processFile w c o r id assets i f s).st⟩) ∨
    ((processFile w c o r id assets i f s).val = none ∧
      appendFilesLoop w c o r id assets i (f :: rest) s =
        ⟨(appendFilesLoop w c o r id assets (i + 1) rest
            (processFile w c o r id assets i f s).st).val,
          (processFile w c o r id assets i f s).log ++
            (appendFilesLoop w c o r id assets (i + 1) rest
              (processFile w c o r id assets i f s).st).log,
          (appendFilesLoop w c o r id assets (i + 1) rest
            (processFile w c o r id assets i f s).st).st⟩) := by
  cases hp : (processFile w c o r id assets i f s).val with
  | some m => left; exact ⟨m, rfl, by simp [appendFilesLoop, hp]⟩
  | none => right; exact ⟨rfl, by simp [appendFilesLoop, hp]⟩

theorem appendFilesLoop_iter (id : Int) (assets : List ReleaseAsset) (i : Nat)
    (files : List String) (s : σ) :
    ∀ e ∈ (appendFilesLoop w c o r id assets i files s).log,
      ∃ j f, e.iter = some (j, f) ∧ i ≤ j ∧ files[j - i]? = some f := by
  induction files generalizing i s with
  | nil => intro e he; simp [appendFilesLoop] at he
  | cons f rest ih =>
    intro e he
    have hp := processFile_iter w c o r id assets i f s
    rcases appendFilesLoop_cons w c o r id assets i f rest s with ⟨m, -, h⟩ | ⟨-, h⟩ <;>
      rw [h] at he <;> simp only [List.mem_append] at he
    · exact ⟨i, f, hp e he, le_refl _, by simp⟩
    · rcases he with h1 | h1
      · exact ⟨i, f, hp e h1, le_refl _, by simp⟩
      · obtain ⟨j, g, hj, hij, hg⟩ := ih (i + 1) _ e h1
        refine ⟨j, g, hj, by omega, ?_⟩
        have : j - i = (j - (i + 1)) + 1 := by omega
        rw [this, List.getElem?_cons_succ]; exact hg

theorem appendFilesLoop_none_ok (id : Int) (assets : List ReleaseAsset) (i : Nat)
    (files : List String) (s : σ)
    (hv : (appendFilesLoop w c o r id assets i files s).val = none) :
    ∀ e ∈ (appendFilesLoop w c o r id assets i files s).log, e.ok = true := by
  induction files generalizing i s with
  | nil => intro e he; simp [appendFilesLoop] at he
  | cons f rest ih =>
    intro e he
    rcases appendFilesLoop_cons w c o r id assets i f rest s with ⟨m, -, h⟩ | ⟨hp, h⟩ <;>
      rw [h] at he hv
    · simp at hv
    · simp only [List.mem_append] at he
      rcases he with h1 | h1
      · exact processFile_none_ok w c o r id assets i f s hp e h1
      · exact ih (i + 1) _ hv e h1

theorem appendFilesLoop_some (id : Int) (assets : List ReleaseAsset) (i : Nat)
    (files : List String) (s : σ) (m : String)
    (hv : (appendFilesLoop w c o r id assets i files s).val = some m) :
    ∃ init last, (appendFilesLoop w c o r id assets i files s).log = init ++ [last] ∧
      last.ok = false ∧ ∀ e ∈ init, e.ok = true := by
  induction files generalizing i s with
  | nil => simp [appendFilesLoop] at hv
  | cons f rest ih =>
    rcases appendFilesLoop_cons w c o r id assets i f rest s with ⟨m1, hp, h⟩ | ⟨hp, h⟩ <;>
      rw [h] at hv ⊢
    · exact processFile_some w c o r id assets i f s m1 hp
    · obtain ⟨init, last, hlog, hlast, hinit⟩ := ih (i + 1) _ hv
      refine ⟨(processFile w c o r id assets i f s).log ++ init, last, ?_, hlast, ?_⟩
      · simp [hlog]
      · intro e he
        simp only [List.mem_append] at he
        rcases he with h1 | h1
        · exact processFile_none_ok w c o r id assets i f s hp e h1
        · exact hinit e h1

theorem appendFilesLoop_remote (id : Int) (assets : List ReleaseAsset) (i : Nat)
    (files : List String) (s : σ)
    (hv : (appendFilesLoop w c o r id assets i files s).val = none) :
    remoteCalls (appendFilesLoop w c o r id assets i files s).log =
      files.flatMap (expectedFileCalls o r id assets) := by
  induction files generalizing i s with
  | nil => simp [appendFilesLoop, remoteCalls]
  | cons f rest ih =>
    rcases appendFilesLoop_cons w c o r id assets i f rest s with ⟨m, -, h⟩ | ⟨hp, h⟩ <;>
      rw [h] at hv ⊢
    · simp at hv
    · have h1 := processFile_remote w c o r id assets i f s hp
      have h2 := ih (i + 1) _ hv
      simp only [remoteCalls] at h1 h2 ⊢
      simp [List.flatMap_cons, expectedFileCalls, h1, h2]

theorem appendFilesLoop_target (id : Int) (assets : List ReleaseAsset) (i : Nat)
    (files : List String) (s : σ) :
    ∀ e ∈ (appendFilesLoop w c o r id assets i files s).log, e.call.isDelete = true →
      ∃ j f a, e.iter = some (j, f) ∧ a ∈ assets ∧ a.Name = pathBase f ∧
        e.call = Call.deleteReleaseAsset o r a.ID := by
  induction files generalizing i s with
  | nil => intro e he; simp [appendFilesLoop] at he
  | cons f rest ih =>
    intro e he hdel
    have hp : ∀ e ∈ (processFile w c o r id assets i f s).log, e.call.isDelete = true →
        ∃ j f a, e.iter = some (j, f) ∧ a ∈ assets ∧ a.Name = pathBase f ∧
          e.call = Call.deleteReleaseAsset o r a.ID := by
      intro e he hdel
      obtain ⟨a, ha, hn, hc⟩ := processFile_target w c o r id assets i f s e he hdel
      exact ⟨i, f, a, processFile_iter w c o r id assets i f s e he, ha, hn, hc⟩
    rcases appendFilesLoop_cons w c o r id assets i f rest s with ⟨m, -, h⟩ | ⟨-, h⟩ <;>
      rw [h] at he <;> simp only [List.mem_append] at he
    · exact hp e he hdel
    · rcases he with h1 | h1
      · exact hp e h1 hdel
      · exact ih (i + 1) _ e h1 hdel

theorem failed_is_last (log init : List Entry) (last e : Entry)
    (hlog : log = init ++ [last]) (hinit : ∀ x ∈ init, x.ok = true)
    (he : e ∈ log) (hfail : e.ok = false) : log.getLast? = some e := by
  subst hlog
  simp only [List.mem_append, List.mem_singleton] at he
  rcases he with h | h
  · have := hinit e h; simp [this] at hfail
  · subst h; simp

/-- A failed call in the file loop makes the loop return an error, and it is the
last entry of the log. -/
theorem appendFilesLoop_failed (id : Int) (assets : List ReleaseAsset) (i : Nat)
    (files : List String) (s : σ) (e : Entry)
    (he : e ∈ (appendFilesLoop w c o r id assets i files s).log) (hfail : e.ok = false) :
    (∃ m, (appendFilesLoop w c o r id assets i files s).val = some m) ∧
    (appendFilesLoop w c o r id assets i files s).log.getLast? = some e := by
  cases hv : (appendFilesLoop w c o r id assets i files s).val with
  | none =>
    have := appendFilesLoop_none_ok w c o r id assets i files s hv e he
    simp [this] at hfail
  | some m =>
    obtain ⟨init, last, hlog, -, hinit⟩ := appendFilesLoop_some w c o r id assets i files s m hv
    exact ⟨⟨m, rfl⟩, failed_is_last _ init last e hlog hinit he hfail⟩

theorem appendFilesLoop_open_fail (id : Int) (assets : List ReleaseAsset) (i : Nat)
    (files : List String) (s : σ) (e : Entry) (n : Nat) (f : String)
    (he : e ∈ (appendFilesLoop w c o r id assets i files s).log)
    (hopen : e.call.isOpen = true) (hfail : e.ok = false) (hiter : e.iter = some (n, f)) :
    (appendFilesLoop w c o r id assets i files s).val =
      some ("Failed to read " ++ f ++ " artifact") ∧
    ∀ x ∈ (appendFilesLoop w c o r id assets i files s).log,
      ∀ g, x.iter = some (n, g) → x = e := by
  induction files generalizing i s with
  | nil => simp [appendFilesLoop] at he
  | cons f0 rest ih =>
    have hpi := processFile_iter w c o r id assets i f0 s
    rcases appendFilesLoop_cons w c o r id assets i f0 rest s with ⟨m, hp, h⟩ | ⟨hp, h⟩ <;>
      rw [h] at he ⊢
    · obtain ⟨hval, hlog⟩ := processFile_open_fail w c o r id assets i f0 s e he hopen hfail
      have h1 := hpi e he
      rw [hiter] at h1
      simp only [Option.some.injEq, Prod.mk.injEq] at h1
      obtain ⟨-, hf⟩ := h1
      subst hf
      rw [hval] at hp
      refine ⟨by simp only [hp], ?_⟩
      intro x hx g _
      rw [hlog] at hx
      simpa using hx
    · simp only [List.mem_append] at he
      rcases he with h1 | h1
      · have := processFile_none_ok w c o r id assets i f0 s hp e h1
        simp [this] at hfail
      · obtain ⟨hval, hall⟩ := ih (i + 1) _ h1
        refine ⟨hval, ?_⟩
        intro x hx g hg
        simp only [List.mem_append] at hx
        rcases hx with h2 | h2
        · obtain ⟨j, f1, hj, hij, -⟩ := appendFilesLoop_iter w c o r id assets (i + 1) rest _ e h1
          have h3 := hpi x h2
          rw [hiter] at hj
          rw [hg] at h3
          simp only [Option.some.injEq, Prod.mk.injEq] at hj h3
          omega
        · exact hall x h2 g hg

/-- Nothing is logged for a file after the one whose processing failed. -/
theorem appendFilesLoop_fail_bound (id : Int) (assets : List ReleaseAsset) (i : Nat)
    (files : List String) (s : σ) (e : Entry) (n : Nat) (f : String)
    (he : e ∈ (appendFilesLoop w c o r id assets i files s).log)
    (hfail : e.ok = false) (hiter : e.iter = some (n, f)) :
    ∀ x ∈ (appendFilesLoop w c o r id assets i files s).log,
      ∀ j g, x.iter = some (j, g) → j ≤ n := by
  induction files generalizing i s with
  | nil => simp [appendFilesLoop] at he
  | cons f0 rest ih =>
    have hpi := processFile_iter w c o r id assets i f0 s
    rcases appendFilesLoop_cons w c o r id assets i f0 rest s with ⟨m, hp, h⟩ | ⟨hp, h⟩ <;>
      rw [h] at he ⊢
    · intro x hx j g hg
      have h1 := hpi e he
      have h2 := hpi x hx
      rw [hiter] at h1
      rw [hg] at h2
      simp only [Option.some.injEq, Prod.mk.injEq] at h1 h2
      omega
    · simp only [List.mem_append] at he
      rcases he with h1 | h1
      · have := processFile_none_ok w c o r id assets i f0 s hp e h1
        simp [this] at hfail
      · intro x hx j g hg
        simp only [List.mem_append] at hx
        rcases hx with h2 | h2
        · obtain ⟨j1, f1, hj, hij, -⟩ :=
            appendFilesLoop_iter w c o r id assets (i + 1) rest _ e h1
          have h3 := hpi x h2
          rw [hiter] at hj
          rw [hg] at h3
          simp only [Option.some.injEq, Prod.mk.injEq] at hj h3
          omega
        · exact ih (i + 1) _ h1 x h2 j g hg

/-- The file loop over `pre ++ post` when the loop over `pre` fails. -/
theorem appendFilesLoop_append_some (id : Int) (assets : List ReleaseAsset) (i : Nat)
    (pre post : List String) (s : σ) (m : String)
    (hv : (appendFilesLoop w c o r id assets i pre s).val = some m) :
    appendFilesLoop w c o r id assets i (pre ++ post) s =
      appendFilesLoop w c o r id assets i pre s := by
  induction pre generalizing i s with
  | nil => simp [appendFilesLoop] at hv
  | cons f rest ih =>
    rcases appendFilesLoop_cons w c o r id assets i f rest s with ⟨m1, hp, h⟩ | ⟨hp, h⟩
    · rcases appendFilesLoop_cons w c o r id assets i f (rest ++ post) s with
        ⟨m2, hp2, h2⟩ | ⟨hp2, h2⟩
      · rw [List.cons_append, h, h2]; rw [hp] at hp2; simp only [Option.some.injEq] at hp2
        rw [hp2]
      · rw [hp] at hp2; simp at hp2
    · rcases appendFilesLoop_cons w c o r id assets i f (rest ++ post) s with
        ⟨m2, hp2, h2⟩ | ⟨hp2, h2⟩
      · rw [hp] at hp2; simp at hp2
      · rw [h] at hv
        rw [List.cons_append, h, h2, ih (i + 1) _ hv]

/-- The file loop over `pre ++ post` when the loop over `pre` succeeds. -/
theorem appendFilesLoop_append_none (id : Int) (assets : List ReleaseAsset) (i : Nat)
    (pre post : List String) (s : σ)
    (hv : (appendFilesLoop w c o r id assets i pre s).val = none) :
    appendFilesLoop w c o r id assets i (pre ++ post) s =
      ⟨(appendFilesLoop w c o r id assets (i + pre.length) post
          (appendFilesLoop w c o r id assets i pre s).st).val,
        (appendFilesLoop w c o r id assets i pre s).log ++
          (appendFilesLoop w c o r id assets (i + pre.length) post
            (appendFilesLoop w c o r id assets i pre s).st).log,
        (appendFilesLoop w c o r id assets (i + pre.length) post
          (appendFilesLoop w c o r id assets i pre s).st).st⟩ := by
  induction pre generalizing i s with
  | nil => simp [appendFilesLoop]
  | cons f rest ih =>
    rcases appendFilesLoop_cons w c o r id assets i f rest s with ⟨m1, hp, h⟩ | ⟨hp, h⟩
    · rw [h] at hv; simp at hv
    · rcases appendFilesLoop_cons w c o r id assets i f (rest ++ post) s with
        ⟨m2, hp2, h2⟩ | ⟨hp2, h2⟩
      · rw [hp] at hp2; simp at hp2
      · rw [h] at hv
        have hlen : i + (f :: rest).length = i + 1 + rest.length := by
          simp only [List.length_cons]; omega
        rw [List.cons_append, h2, ih (i + 1) _ hv, h, hlen]
        simp only [List.append_assoc]

theorem deleteMatching_fail_kind (i : Nat) (f : String) (assets : List ReleaseAsset) (s : σ) :
    ∀ e ∈ (deleteMatching w c o r i f assets s).log, e.ok = false →
      e.call.isFileStep = true := by
  induction assets generalizing s with
  | nil => intro e he; simp [deleteMatching] at he
  | cons a rest ih =>
    intro e he hf
    simp only [deleteMatching] at he
    split_ifs at he with h1 h2
    · simp at he; subst he; rfl
    · simp only [List.mem_cons] at he
      rcases he with h3 | h3 | h3
      · subst h3; rfl
      · subst h3; simp at hf
      · exact ih _ e h3 hf
    · exact ih _ e he hf

theorem processFile_fail_kind (id : Int) (assets : List ReleaseAsset) (i : Nat) (f : String)
    (s : σ) : ∀ e ∈ (processFile w c o r id assets i f s).log, e.ok = false →
      e.call.isFileStep = true := by
  have hd := deleteMatching_fail_kind w c o r i f assets s
  intro e he hf
  rcases processFile_cases w c o r id assets i f s with
    ⟨-, h⟩ | ⟨-, m, -, h⟩ | ⟨-, -, -, h⟩ | ⟨-, -, -, h⟩ <;> rw [h] at he <;>
    simp only [List.mem_cons, List.mem_append, List.mem_singleton, List.not_mem_nil,
      or_false, or_assoc] at he
  · subst he; rfl
  · rcases he with h1 | h1
    · subst h1; rfl
    · exact hd e h1 hf
  · rcases he with h1 | h1 | h1
    · subst h1; rfl
    · exact hd e h1 hf
    · subst h1; rfl
  · rcases he with h1 | h1 | h1 | h1
    · subst h1; rfl
    · exact hd e h1 hf
    · subst h1; rfl
    · subst h1; simp at hf

theorem appendFilesLoop_fail_kind (id : Int) (assets : List ReleaseAsset) (i : Nat)
    (files : List String) (s : σ) :
    ∀ e ∈ (appendFilesLoop w c o r id assets i files s).log, e.ok = false →
      e.call.isFileStep = true := by
  induction files generalizing i s with
  | nil => intro e he; simp [appendFilesLoop] at he
  | cons f rest ih =>
    intro e he hf
    have hp := processFile_fail_kind w c o r id assets i f s
    rcases appendFilesLoop_cons w c o r id assets i f rest s with ⟨m, -, h⟩ | ⟨-, h⟩ <;>
      rw [h] at he <;> simp only [List.mem_append] at he
    · exact hp e he hf
    · rcases he with h1 | h1
      · exact hp e h1 hf
      · exact ih (i + 1) _ e h1 hf

/-- When a call of iteration `n` fails, the loop over the files before position
`n` succeeded, and all that follows its log belongs to iteration `n`. -/
theorem appendFilesLoop_split (id : Int) (assets : List ReleaseAsset)
    (files : List String) (s : σ) (e : Entry) (n : Nat) (f : String)
    (he : e ∈ (appendFilesLoop w c o r id assets 0 files s).log)
    (hfail : e.ok = false) (hiter : e.iter = some (n, f)) :
    (appendFilesLoop w c o r id assets 0 (files.take n) s).val = none ∧
    ∃ t, (appendFilesLoop w c o r id assets 0 files s).log =
        (appendFilesLoop w c o r id assets 0 (files.take n) s).log ++ t ∧
      ∀ x ∈ t, x.iter = some (n, f) := by
  obtain ⟨j, g, hj, -, hg⟩ := appendFilesLoop_iter w c o r id assets 0 files s e he
  rw [hiter] at hj
  simp only [Option.some.injEq, Prod.mk.injEq] at hj
  obtain ⟨hjn, hgf⟩ := hj
  subst hjn; subst hgf
  simp only [Nat.sub_zero] at hg
  have hlt : n < files.length := by
    by_contra hcon
    have : files[n]? = none := List.getElem?_eq_none (by omega)
    rw [this] at hg; simp at hg
  have hlen : (files.take n).length = n := by simp; omega
  cases hv : (appendFilesLoop w c o r id assets 0 (files.take n) s).val with
  | some m =>
    exfalso
    have h1 := appendFilesLoop_append_some w c o r id assets 0 (files.take n) (files.drop n) s m hv
    rw [List.take_append_drop] at h1
    rw [h1] at he
    obtain ⟨j, g, hj, -, hg2⟩ := appendFilesLoop_iter w c o r id assets 0 (files.take n) s e he
    rw [hiter] at hj
    simp only [Option.some.injEq, Prod.mk.injEq] at hj
    obtain ⟨hjn, -⟩ := hj
    subst hjn
    simp only [Nat.sub_zero] at hg2
    have : (files.take n)[n]? = none := List.getElem?_eq_none (by omega)
    rw [this] at hg2; simp at hg2
  | none =>
    refine ⟨rfl, ?_⟩
    have h1 := appendFilesLoop_append_none w c o r id assets 0 (files.take n) (files.drop n) s hv
    rw [List.take_append_drop] at h1
    refine ⟨_, by rw [h1], ?_⟩
    intro x hx
    have hxw : x ∈ (appendFilesLoop w c o r id assets 0 files s).log := by
      rw [h1]; exact List.mem_append_right _ hx
    obtain ⟨j, g, hj, hij, hg2⟩ := appendFilesLoop_iter w c o r id assets _ _ _ x hx
    have hb := appendFilesLoop_fail_bound w c o r id assets 0 files s e n f he hfail hiter
      x hxw j g hj
    rw [hlen] at hij hg2
    have hjn : j = n := by omega
    subst hjn
    simp only [Nat.zero_add, Nat.sub_self, List.getElem?_drop, Nat.add_zero] at hg2
    rw [hg] at hg2
    simp only [Option.some.injEq] at hg2
    rw [hj, hg2]

theorem deleteMatching_loopCall (i : Nat) (f : String) (assets : List ReleaseAsset) (s : σ) :
    ∀ e ∈ (deleteMatching w c o r i f assets s).log, e.call.isLoopCall = true := by
  induction assets generalizing s with
  | nil => intro e he; simp [deleteMatching] at he
  | cons a rest ih =>
    intro e he
    simp only [deleteMatching] at he
    split_ifs at he with h1 h2
    · simp at he; subst he; rfl
    · simp only [List.mem_cons] at he
      rcases he with h3 | h3 | h3
      · subst h3; rfl
      · subst h3; rfl
      · exact ih _ e h3
    · exact ih _ e he

theorem processFile_loopCall (id : Int) (assets : List ReleaseAsset) (i : Nat) (f : String)
    (s : σ) : ∀ e ∈ (processFile w c o r id assets i f s).log, e.call.isLoopCall = true := by
  have hd := deleteMatching_loopCall w c o r i f assets s
  intro e he
  rcases processFile_cases w c o r id assets i f s with
    ⟨-, h⟩ | ⟨-, m, -, h⟩ | ⟨-, -, -, h⟩ | ⟨-, -, -, h⟩ <;> rw [h] at he <;>
    simp only [List.mem_cons, List.mem_append, List.mem_singleton, List.not_mem_nil,
      or_false, or_assoc] at he
  · subst he; rfl
  · rcases he with h1 | h1
    · subst h1; rfl
    · exact hd e h1
  · rcases he with h1 | h1 | h1
    · subst h1; rfl
    · exact hd e h1
    · subst h1; rfl
  · rcases he with h1 | h1 | h1 | h1
    · subst h1; rfl
    · exact hd e h1
    · subst h1; rfl
    · subst h1; rfl

theorem appendFilesLoop_loopCall (id : Int) (assets : List ReleaseAsset) (i : Nat)
    (files : List String) (s : σ) :
    ∀ e ∈ (appendFilesLoop w c o r id assets i files s).log, e.call.isLoopCall = true := by
  induction files generalizing i s with
  | nil => intro e he; simp [appendFilesLoop] at he
  | cons f rest ih =>
    intro e he
    have hp := processFile_loopCall w c o r id assets i f s
    rcases appendFilesLoop_cons w c o r id assets i f rest s with ⟨m, -, h⟩ | ⟨-, h⟩ <;>
      rw [h] at he <;> simp only [List.mem_append] at he
    · exact hp e he
    · rcases he with h1 | h1
      · exact hp e h1
      · exact ih (i + 1) _ e h1

/-- The log of `appendFiles` holds its list call and calls of the file loop. -/
theorem appendFiles_log_kinds (id : Int) (files : List String) (s : σ) :
    ∀ e ∈ (appendFiles w c o r id files s).log,
      e.call = Call.listReleaseAssets o r id ∨ e.call.isLoopCall = true := by
  intro e he
  simp only [appendFiles] at he
  split_ifs at he with h
  · simp only [List.mem_singleton] at he
    subst he; exact Or.inl rfl
  · simp only [List.mem_cons] at he
    rcases he with h1 | h1
    · subst h1; exact Or.inl rfl
    · exact Or.inr (appendFilesLoop_loopCall w c o r id _ 0 files _ e h1)

/-- Function `appendFiles` when the listing succeeds. -/
theorem appendFiles_listed (id : Int) (files : List String) (s : σ)
    (hlist : (w.listReleaseAssets s c o r id).err = false) :
    appendFiles w c o r id files s =
      ⟨(appendFilesLoop w c o r id (w.listReleaseAssets s c o r id).val 0 files
          (w.listReleaseAssets s c o r id).st).val,
        ⟨none, .listReleaseAssets o r id, true⟩ ::
          (appendFilesLoop w c o r id (w.listReleaseAssets s c o r id).val 0 files
            (w.listReleaseAssets s c o r id).st).log,
        (appendFilesLoop w c o r id (w.listReleaseAssets s c o r id).val 0 files
          (w.listReleaseAssets s c o r id).st).st⟩ := by
  simp [appendFiles, hlist]

/-- Function `appendFiles` when the listing fails. -/
theorem appendFiles_unlisted (id : Int) (files : List String) (s : σ)
    (hlist : (w.listReleaseAssets s c o r id).err = true) :
    appendFiles w c o r id files s =
      ⟨some "Failed to fetch existing assets",
        [⟨none, .listReleaseAssets o r id, false⟩], (w.listReleaseAssets s c o r id).st⟩ := by
  simp [appendFiles, hlist]

/-- An entry of `appendFiles` made inside the file loop comes from the loop run
on a successful listing. -/
theorem appendFiles_iter_mem (id : Int) (files : List String) (s : σ) (e : Entry)
    (n : Nat) (f : String) (he : e ∈ (appendFiles w c o r id files s).log)
    (hiter : e.iter = some (n, f)) :
    (w.listReleaseAssets s c o r id).err = false ∧
    e ∈ (appendFilesLoop w c o r id (w.listReleaseAssets s c o r id).val 0 files
      (w.listReleaseAssets s c o r id).st).log := by
  cases hlist : (w.listReleaseAssets s c o r id).err with
  | true =>
    rw [appendFiles_unlisted w c o r id files s hlist] at he
    simp only [List.mem_singleton] at he
    subst he; simp at hiter
  | false =>
    rw [appendFiles_listed w c o r id files s hlist] at he
    simp only [List.mem_cons] at he
    rcases he with h | h
    · subst h; simp at hiter
    · exact ⟨rfl, h⟩

end Lemmas

/-! ## The file loop over the modelled release -/

section Model

variable (rd : String → Bool) (ex : Option RepositoryRelease) (c : Client) (o r : String)

theorem releaseWorld_osOpen (s : ReleaseState) (f : String) :
    (releaseWorld rd ex).osOpen s f = rd f := rfl

theorem releaseWorld_list (s : ReleaseState) (id : Int) :
    (releaseWorld rd ex).listReleaseAssets s c o r id = ⟨s.assets, false, s⟩ := rfl

theorem releaseWorld_delete (s : ReleaseState) (assetID : Int) :
    (releaseWorld rd ex).deleteReleaseAsset s c o r assetID =
      ⟨(), false, ⟨s.assets.filter (fun a => decide (a.ID ≠ assetID)), s.nextID⟩⟩ := rfl

theorem releaseWorld_upload (s : ReleaseState) (id : Int) (name file : String) :
    (releaseWorld rd ex).uploadReleaseAsset s c o r id name file =
      ⟨(), false, ⟨s.assets ++ [⟨s.nextID, name⟩], s.nextID + 1⟩⟩ := rfl

theorem model_deleteMatching (i : Nat) (f : String) (L : List ReleaseAsset)
    (s : ReleaseState) :
    (deleteMatching (releaseWorld rd ex) c o r i f L s).val = none ∧
    (deleteMatching (releaseWorld rd ex) c o r i f L s).st =
      ⟨s.assets.filter (fun a => decide (a.ID ∉ matchingIDs L f)), s.nextID⟩ := by
  induction L generalizing s with
  | nil => simp [deleteMatching, matchingIDs]
  | cons a rest ih =>
    by_cases h : a.Name = pathBase f
    · have h1 := ih ⟨s.assets.filter (fun x => decide (x.ID ≠ a.ID)), s.nextID⟩
      simp only [deleteMatching, h, if_true, releaseWorld_delete, Bool.false_eq_true, if_false]
      refine ⟨h1.1, ?_⟩
      rw [h1.2]
      simp only [matchingIDs, List.filter_filter, List.filter_cons, h, decide_True, if_true,
        List.map_cons, List.mem_cons, not_or]
      congr 1
      apply List.filter_congr
      intro x _
      simp [Bool.and_comm]
    · have h1 := ih s
      simp only [deleteMatching, h, if_false]
      refine ⟨h1.1, ?_⟩
      rw [h1.2]
      simp [matchingIDs, List.filter_cons, h]

theorem model_processFile_readable (id : Int) (L : List ReleaseAsset) (i : Nat) (f : String)
    (s : ReleaseState) (h : rd f = true) :
    (processFile (releaseWorld rd ex) c o r id L i f s).val = none ∧
    (processFile (releaseWorld rd ex) c o r id L i f s).st = reconcileStep L s f := by
  obtain ⟨hv, hs⟩ := model_deleteMatching rd ex c o r i f L s
  rcases processFile_cases (releaseWorld rd ex) c o r id L i f s with
    ⟨ho, -⟩ | ⟨-, m, hd, -⟩ | ⟨-, -, hu, -⟩ | ⟨-, -, -, hp⟩
  · rw [releaseWorld_osOpen, h] at ho; simp at ho
  · rw [hv] at hd; simp at hd
  · rw [releaseWorld_upload] at hu; simp at hu
  · rw [hp]
    refine ⟨rfl, ?_⟩
    simp only [releaseWorld_upload, hs, reconcileStep]

theorem model_processFile_unreadable (id : Int) (L : List ReleaseAsset) (i : Nat)
    (f : String) (s : ReleaseState) (h : rd f = false) :
    (processFile (releaseWorld rd ex) c o r id L i f s).val =
      some ("Failed to read " ++ f ++ " artifact") := by
  rcases processFile_cases (releaseWorld rd ex) c o r id L i f s with
    ⟨-, hp⟩ | ⟨ho, -⟩ | ⟨ho, -⟩ | ⟨ho, -⟩
  · rw [hp]
  · rw [releaseWorld_osOpen, h] at ho; simp at ho
  · rw [releaseWorld_osOpen, h] at ho; simp at ho
  · rw [releaseWorld_osOpen, h] at ho; simp at ho

theorem model_loop (id : Int) (L : List ReleaseAsset) (i : Nat) (files : List String)
    (s : ReleaseState) (h : ∀ f ∈ files, rd f = true) :
    (appendFilesLoop (releaseWorld rd ex) c o r id L i files s).val = none ∧
    (appendFilesLoop (releaseWorld rd ex) c o r id L i files s).st =
      files.foldl (reconcileStep L) s := by
  induction files generalizing i s with
  | nil => simp [appendFilesLoop]
  | cons f rest ih =>
    obtain ⟨hv, hs⟩ := model_processFile_readable rd ex c o r id L i f s
      (h f (List.mem_cons_self _ _))
    rcases appendFilesLoop_cons (releaseWorld rd ex) c o r id L i f rest s with
      ⟨m, hp, -⟩ | ⟨-, hl⟩
    · rw [hv] at hp; simp at hp
    · rw [hl, hs]
      exact ih (i + 1) _ (fun g hg => h g (List.mem_cons_of_mem _ hg))

theorem model_loop_readable (id : Int) (L : List ReleaseAsset) (i : Nat)
    (files : List String) (s : ReleaseState)
    (hv : (appendFilesLoop (releaseWorld rd ex) c o r id L i files s).val = none) :
    ∀ f ∈ files, rd f = true := by
  induction files generalizing i s with
  | nil => intro f hf; simp at hf
  | cons f rest ih =>
    rcases appendFilesLoop_cons (releaseWorld rd ex) c o r id L i f rest s with
      ⟨m, -, hl⟩ | ⟨hp, hl⟩
    · rw [hl] at hv; simp at hv
    · have hf : rd f = true := by
        cases hrd : rd f with
        | true => rfl
        | false =>
          rw [model_processFile_unreadable rd ex c o r id L i f s hrd] at hp
          simp at hp
      rw [hl] at hv
      intro g hg
      simp only [List.mem_cons] at hg
      rcases hg with h1 | h1
      · rw [h1]; exact hf
      · exact ih (i + 1) _ hv g h1

/-- On the modelled release, `appendFiles` over readable files returns no error
and leaves the fold of the per-file effect over the listing it took. -/
theorem model_appendFiles (id : Int) (files : List String) (s : ReleaseState)
    (h : ∀ f ∈ files, rd f = true) :
    (appendFiles (releaseWorld rd ex) c o r id files s).val = none ∧
    (appendFiles (releaseWorld rd ex) c o r id files s).st =
      files.foldl (reconcileStep s.assets) s := by
  rw [appendFiles_listed (releaseWorld rd ex) c o r id files s rfl]
  exact model_loop rd ex c o r id s.assets 0 files s h

theorem model_appendFiles_readable (id : Int) (files : List String) (s : ReleaseState)
    (hv : (appendFiles (releaseWorld rd ex) c o r id files s).val = none) :
    ∀ f ∈ files, rd f = true := by
  rw [appendFiles_listed (releaseWorld rd ex) c o r id files s rfl] at hv
  exact model_loop_readable rd ex c o r id s.assets 0 files s hv

end Model

/-! ## The per-file effect on the modelled release -/

theorem mem_matchingIDs (L : List ReleaseAsset) (f : String) (x : Int) :
    x ∈ matchingIDs L f ↔ ∃ a ∈ L, a.Name = pathBase f ∧ a.ID = x := by
  simp [matchingIDs, and_assoc]

theorem freshID_gt (A : List ReleaseAsset) : ∀ a ∈ A, a.ID < freshID A := by
  induction A with
  | nil => intro a ha; simp at ha
  | cons b rest ih =>
    intro a ha
    simp only [freshID, List.map_cons, List.foldr_cons] at ih ⊢
    simp only [List.mem_cons] at ha
    rcases ha with h | h
    · subst h
      have := le_max_left a.ID (List.foldr max 0 (List.map ReleaseAsset.ID rest))
      omega
    · have h1 := ih a h
      have := le_max_right b.ID (List.foldr max 0 (List.map ReleaseAsset.ID rest))
      omega

theorem newAssets_names (n : Int) (files : List String) :
    (newAssets n files).map ReleaseAsset.Name = files.map pathBase := by
  induction files generalizing n with
  | nil => rfl
  | cons f rest ih => simp [newAssets, ih]

theorem newAssets_ids (n : Int) (files : List String) :
    ∀ a ∈ newAssets n files, n ≤ a.ID ∧ a.ID < n + files.length := by
  induction files generalizing n with
  | nil => intro a ha; simp [newAssets] at ha
  | cons f rest ih =>
    intro a ha
    simp only [newAssets, List.mem_cons] at ha
    rcases ha with h | h
    · subst h; simp only [List.length_cons]; constructor <;> push_cast <;> omega
    · have := ih (n + 1) a h
      simp only [List.length_cons]; constructor <;> push_cast <;> omega

theorem newAssets_name_mem (n : Int) (files : List String) :
    ∀ a ∈ newAssets n files, ∃ f ∈ files, a.Name = pathBase f := by
  induction files generalizing n with
  | nil => intro a ha; simp [newAssets] at ha
  | cons f rest ih =>
    intro a ha
    simp only [newAssets, List.mem_cons] at ha
    rcases ha with h | h
    · subst h; exact ⟨f, List.mem_cons_self _ _, rfl⟩
    · obtain ⟨g, hg, hn⟩ := ih (n + 1) a h
      exact ⟨g, List.mem_cons_of_mem _ hg, hn⟩

/-- The release after the file loop, in closed form: the assets whose
identifier was not deleted, then the uploads. -/
theorem fold_reconcileStep (L : List ReleaseAsset) (files : List String) (s : ReleaseState)
    (hL : ∀ a ∈ L, a.ID < s.nextID) :
    files.foldl (reconcileStep L) s =
      ⟨s.assets.filter (fun a => decide (a.ID ∉ files.flatMap (matchingIDs L))) ++
        newAssets s.nextID files, s.nextID + files.length⟩ := by
  induction files generalizing s with
  | nil => simp [newAssets]
  | cons f rest ih =>
    have hL1 : ∀ a ∈ L, a.ID < (reconcileStep L s f).nextID := by
      intro a ha
      have := hL a ha
      simp only [reconcileStep]; omega
    have hnew : s.nextID ∉ rest.flatMap (matchingIDs L) := by
      intro hmem
      simp only [List.mem_flatMap] at hmem
      obtain ⟨g, -, hg⟩ := hmem
      obtain ⟨a, ha, -, hid⟩ := (mem_matchingIDs L g _).1 hg
      have := hL a ha
      omega
    rw [List.foldl_cons, ih _ hL1]
    simp only [reconcileStep, List.filter_append, List.filter_filter, List.flatMap_cons,
      List.mem_append, not_or, newAssets, List.length_cons, List.filter_cons, List.filter_nil,
      hnew, not_false_eq_true, decide_True, if_true, List.append_assoc, List.singleton_append]
    congr 1
    · congr 1
      apply List.filter_congr
      intro x _
      simp [Bool.and_comm]
    · push_cast; omega

/-! ## The asset reconciler: `appendFiles` -/

/-- C2: when the listing succeeds and every call `appendFiles` makes for the
files (open, delete, upload) succeeds, it returns no error and its remote calls
are exactly: the one list-assets call, then for each file in order the deletes
of the listed assets named like the file, in listing order, followed by one
upload under the base name of the file. -/
theorem appendFiles_call_sequence (w : World σ) (c : Client) (o r : String) (id : Int)
    (files : List String) (s : σ)
    (hlist : (w.listReleaseAssets s c o r id).err = false)
    (hok : ∀ e ∈ (appendFiles w c o r id files s).log,
      e.call.isFileStep = true → e.ok = true) :
    (appendFiles w c o r id files s).val = none ∧
    remoteCalls (appendFiles w c o r id files s).log =
      Call.listReleaseAssets o r id ::
        files.flatMap (expectedFileCalls o r id (w.listReleaseAssets s c o r id).val) := by
  have hdef : appendFiles w c o r id files s =
      ⟨(appendFilesLoop w c o r id (w.listReleaseAssets s c o r id).val 0 files
          (w.listReleaseAssets s c o r id).st).val,
        ⟨none, .listReleaseAssets o r id, true⟩ ::
          (appendFilesLoop w c o r id (w.listReleaseAssets s c o r id).val 0 files
            (w.listReleaseAssets s c o r id).st).log,
        (appendFilesLoop w c o r id (w.listReleaseAssets s c o r id).val 0 files
          (w.listReleaseAssets s c o r id).st).st⟩ := by
    simp [appendFiles, hlist]
  rw [hdef] at hok ⊢
  have hv : (appendFilesLoop w c o r id (w.listReleaseAssets s c o r id).val 0 files
      (w.listReleaseAssets s c o r id).st).val = none := by
    cases hv : (appendFilesLoop w c o r id (w.listReleaseAssets s c o r id).val 0 files
      (w.listReleaseAssets s c o r id).st).val with
    | none => rfl
    | some m =>
      exfalso
      obtain ⟨init, last, hlog, hlast, -⟩ := appendFilesLoop_some w c o r id _ 0 files _ m hv
      have hmem : last ∈ (appendFilesLoop w c o r id (w.listReleaseAssets s c o r id).val 0
          files (w.listReleaseAssets s c o r id).st).log := by rw [hlog]; simp
      have hk := appendFilesLoop_fail_kind w c o r id _ 0 files _ last hmem hlast
      have := hok last (List.mem_cons_of_mem _ hmem) hk
      simp [this] at hlast
  refine ⟨hv, ?_⟩
  have h1 := appendFilesLoop_remote w c o r id _ 0 files _ hv
  simp only [remoteCalls] at h1 ⊢
  simp [List.filter_cons, Call.isRemote, h1]

theorem appendFiles_call_sequence_witness :
    (demoWorld.listReleaseAssets (initRelease demoAssets) demoClient "octo" "app" 1).err = false ∧
    (∀ e ∈ (appendFiles demoWorld demoClient "octo" "app" 1 demoFiles
      (initRelease demoAssets)).log, e.call.isFileStep = true → e.ok = true) ∧
    (appendFiles demoWorld demoClient "octo" "app" 1 demoFiles (initRelease demoAssets)).val
      = none ∧
    remoteCalls (appendFiles demoWorld demoClient "octo" "app" 1 demoFiles
      (initRelease demoAssets)).log =
      [Call.listReleaseAssets "octo" "app" 1,
       Call.deleteReleaseAsset "octo" "app" 11,
       Call.uploadReleaseAsset "octo" "app" 1 "app.tar.gz" "dist/app.tar.gz",
       Call.uploadReleaseAsset "octo" "app" 1 "app.sha256" "dist/app.sha256"] :=
  ⟨by decide, by decide,
    appendFiles_call_sequence demoWorld demoClient "octo" "app" 1 demoFiles
      (initRelease demoAssets) (by decide) (by decide)⟩

/-- C4: every delete call of `appendFiles` is made in the iteration of some
file of the input list, for an asset of the listing whose name equals the base
name of that file; and when the identifiers of the listing are pairwise distinct,
no delete call carries the identifier of a listed asset whose name is the base
name of no input file. -/
theorem appendFiles_delete_targets (w : World σ) (c : Client) (o r : String) (id : Int)
    (files : List String) (s : σ) :
    (∀ e ∈ (appendFiles w c o r id files s).log, e.call.isDelete = true →
      ∃ n f a, e.iter = some (n, f) ∧ files[n]? = some f ∧
        a ∈ (w.listReleaseAssets s c o r id).val ∧ a.Name = pathBase f ∧
        e.call = Call.deleteReleaseAsset o r a.ID) ∧
    (((w.listReleaseAssets s c o r id).val.map ReleaseAsset.ID).Nodup →
      ∀ a ∈ (w.listReleaseAssets s c o r id).val, (∀ f ∈ files, a.Name ≠ pathBase f) →
        ∀ e ∈ (appendFiles w c o r id files s).log, ∀ o2 r2,
          e.call ≠ Call.deleteReleaseAsset o2 r2 a.ID) := by
  have part1 : ∀ e ∈ (appendFiles w c o r id files s).log, e.call.isDelete = true →
      ∃ n f a, e.iter = some (n, f) ∧ files[n]? = some f ∧
        a ∈ (w.listReleaseAssets s c o r id).val ∧ a.Name = pathBase f ∧
        e.call = Call.deleteReleaseAsset o r a.ID := by
    intro e he hdel
    cases hlist : (w.listReleaseAssets s c o r id).err with
    | true =>
      rw [appendFiles_unlisted w c o r id files s hlist] at he
      simp only [List.mem_singleton] at he
      subst he; simp [Call.isDelete] at hdel
    | false =>
      rw [appendFiles_listed w c o r id files s hlist] at he
      simp only [List.mem_cons] at he
      rcases he with h | h
      · subst h; simp [Call.isDelete] at hdel
      · obtain ⟨j, f, a, hj, ha, hn, hc⟩ := appendFilesLoop_target w c o r id _ 0 files _ e h hdel
        obtain ⟨j2, f2, hj2, -, hf2⟩ := appendFilesLoop_iter w c o r id _ 0 files _ e h
        rw [hj] at hj2
        simp only [Option.some.injEq, Prod.mk.injEq] at hj2
        obtain ⟨h1, h2⟩ := hj2
        subst h1; subst h2
        exact ⟨j, f, a, hj, by simpa using hf2, ha, hn, hc⟩
  refine ⟨part1, ?_⟩
  intro hnd a ha hname e he o2 r2 hcall
  obtain ⟨n, f, b, -, hf, hb, hbn, hc⟩ := part1 e he (by rw [hcall]; rfl)
  rw [hcall] at hc
  simp only [Call.deleteReleaseAsset.injEq] at hc
  have hab : a = b := List.inj_on_of_nodup_map hnd ha hb hc.2.2
  subst hab
  exact hname f (List.getElem?_mem hf) hbn

theorem appendFiles_delete_targets_witness :
    ((demoWorld.listReleaseAssets (initRelease demoAssets) demoClient "octo" "app" 1).val.map
      ReleaseAsset.ID).Nodup ∧
    (⟨12, "notes.txt"⟩ : ReleaseAsset) ∈
      (demoWorld.listReleaseAssets (initRelease demoAssets) demoClient "octo" "app" 1).val ∧
    (∀ f ∈ demoFiles, (⟨12, "notes.txt"⟩ : ReleaseAsset).Name ≠ pathBase f) ∧
    ∀ e ∈ (appendFiles demoWorld demoClient "octo" "app" 1 demoFiles
        (initRelease demoAssets)).log, ∀ o2 r2,
      e.call ≠ Call.deleteReleaseAsset o2 r2 12 :=
  ⟨by decide, by decide, by decide,
    (appendFiles_delete_targets demoWorld demoClient "octo" "app" 1 demoFiles
      (initRelease demoAssets)).2 (by decide) ⟨12, "notes.txt"⟩ (by decide) (by decide)⟩

/-- C5: when the open of the file `f` at position `n` fails, `appendFiles`
returns the error "Failed to read f artifact", the failed open is the last call
it makes, and no delete call and no upload call is made in the iteration of
that file, whatever the listing holds. -/
theorem appendFiles_read_check (w : World σ) (c : Client) (o r : String) (id : Int)
    (files : List String) (s : σ) (n : Nat) (f : String)
    (hopen : (⟨some (n, f), .osOpen f, false⟩ : Entry) ∈ (appendFiles w c o r id files s).log) :
    (appendFiles w c o r id files s).val = some ("Failed to read " ++ f ++ " artifact") ∧
    (appendFiles w c o r id files s).log.getLast? = some ⟨some (n, f), .osOpen f, false⟩ ∧
    ∀ e ∈ (appendFiles w c o r id files s).log, ∀ g, e.iter = some (n, g) →
      e.call.isDelete = false ∧ e.call.isUpload = false := by
  obtain ⟨hlist, hmem⟩ := appendFiles_iter_mem w c o r id files s _ n f hopen rfl
  obtain ⟨hval, hall⟩ := appendFilesLoop_open_fail w c o r id _ 0 files _ _ n f hmem rfl rfl rfl
  obtain ⟨-, hlast⟩ := appendFilesLoop_failed w c o r id _ 0 files _ _ hmem rfl
  rw [appendFiles_listed w c o r id files s hlist]
  refine ⟨hval, ?_, ?_⟩
  · simp only [List.getLast?_cons, hlast, Option.getD_some]
  · intro e he g hg
    simp only [List.mem_cons] at he
    rcases he with h | h
    · subst h; simp at hg
    · rw [hall e h g hg]; exact ⟨rfl, rfl⟩

theorem appendFiles_read_check_witness :
    (⟨some (0, "dist/app.tar.gz"), .osOpen "dist/app.tar.gz", false⟩ : Entry) ∈
      (appendFiles lockedWorld demoClient "octo" "app" 1 demoFiles
        (initRelease demoAssets)).log ∧
    (appendFiles lockedWorld demoClient "octo" "app" 1 demoFiles (initRelease demoAssets)).val =
      some "Failed to read dist/app.tar.gz artifact" ∧
    remoteCalls (appendFiles lockedWorld demoClient "octo" "app" 1 demoFiles
      (initRelease demoAssets)).log = [Call.listReleaseAssets "octo" "app" 1] :=
  ⟨by decide,
    (appendFiles_read_check lockedWorld demoClient "octo" "app" 1 demoFiles
      (initRelease demoAssets) 0 "dist/app.tar.gz" (by decide)).1,
    by decide⟩

/-- C6: when a call made for the file at position `n` fails, `appendFiles`
returns an error and the failed call is the last one it makes; nothing is logged
for a file at a later position; and the run on the files before position `n`
alone returns no error, its log opens the log of the whole run, and all that
follows belongs to the iteration of the failing file, so nothing already done is
reverted. -/
theorem appendFiles_abort (w : World σ) (c : Client) (o r : String) (id : Int)
    (files : List String) (s : σ) (e : Entry) (n : Nat) (f : String)
    (he : e ∈ (appendFiles w c o r id files s).log)
    (hfail : e.ok = false) (hiter : e.iter = some (n, f)) :
    (∃ m, (appendFiles w c o r id files s).val = some m) ∧
    (appendFiles w c o r id files s).log.getLast? = some e ∧
    (∀ x ∈ (appendFiles w c o r id files s).log, ∀ j g, x.iter = some (j, g) → j ≤ n) ∧
    (appendFiles w c o r id (files.take n) s).val = none ∧
    ∃ t, (appendFiles w c o r id files s).log =
        (appendFiles w c o r id (files.take n) s).log ++ t ∧
      ∀ x ∈ t, x.iter = some (n, f) := by
  obtain ⟨hlist, hmem⟩ := appendFiles_iter_mem w c o r id files s e n f he hiter
  obtain ⟨hval, hlast⟩ := appendFilesLoop_failed w c o r id _ 0 files _ e hmem hfail
  have hb := appendFilesLoop_fail_bound w c o r id _ 0 files _ e n f hmem hfail hiter
  obtain ⟨hpre, t, ht, htall⟩ := appendFilesLoop_split w c o r id _ files _ e n f hmem hfail hiter
  rw [appendFiles_listed w c o r id files s hlist,
    appendFiles_listed w c o r id (files.take n) s hlist]
  refine ⟨hval, ?_, ?_, hpre, t, ?_, htall⟩
  · simp only [List.getLast?_cons, hlast, Option.getD_some]
  · intro x hx j g hg
    simp only [List.mem_cons] at hx
    rcases hx with h | h
    · subst h; simp at hg
    · exact hb x h j g hg
  · simp only [ht, List.cons_append]

theorem appendFiles_abort_witness :
    (⟨some (1, "dist/app.tar.gz"), .osOpen "dist/app.tar.gz", false⟩ : Entry) ∈
      (appendFiles lockedWorld demoClient "octo" "app" 1
        ["notes.txt", "dist/app.tar.gz", "dist/app.sha256"] (initRelease demoAssets)).log ∧
    (∀ x ∈ (appendFiles lockedWorld demoClient "octo" "app" 1
        ["notes.txt", "dist/app.tar.gz", "dist/app.sha256"] (initRelease demoAssets)).log,
      ∀ j g, x.iter = some (j, g) → j ≤ 1) ∧
    remoteCalls (appendFiles lockedWorld demoClient "octo" "app" 1
        ["notes.txt", "dist/app.tar.gz", "dist/app.sha256"] (initRelease demoAssets)).log =
      [Call.listReleaseAssets "octo" "app" 1,
       Call.deleteReleaseAsset "octo" "app" 12,
       Call.uploadReleaseAsset "octo" "app" 1 "notes.txt" "notes.txt"] :=
  ⟨by decide,
    (appendFiles_abort lockedWorld demoClient "octo" "app" 1
      ["notes.txt", "dist/app.tar.gz", "dist/app.sha256"] (initRelease demoAssets)
      ⟨some (1, "dist/app.tar.gz"), .osOpen "dist/app.tar.gz", false⟩ 1 "dist/app.tar.gz"
      (by decide) rfl rfl).2.2.1,
    by decide⟩

/-- A second pass over the same files deletes exactly the uploads of the first
pass, so the assets it keeps are those the first pass kept. -/
theorem second_pass_keeps (A : List ReleaseAsset) (files : List String) :
    (A.filter (fun a => decide (a.ID ∉ files.flatMap (matchingIDs A))) ++
        newAssets (freshID A) files).filter
      (fun a => decide (a.ID ∉ files.flatMap (matchingIDs
        (A.filter (fun a => decide (a.ID ∉ files.flatMap (matchingIDs A))) ++
          newAssets (freshID A) files)))) =
    A.filter (fun a => decide (a.ID ∉ files.flatMap (matchingIDs A))) := by
  rw [List.filter_append]
  have hnew : (newAssets (freshID A) files).filter
      (fun a => decide (a.ID ∉ files.flatMap (matchingIDs
        (A.filter (fun a => decide (a.ID ∉ files.flatMap (matchingIDs A))) ++
          newAssets (freshID A) files)))) = [] := by
    rw [List.filter_eq_nil_iff]
    intro a ha
    simp only [decide_eq_true_eq, not_not, List.mem_flatMap]
    obtain ⟨g, hg, hn⟩ := newAssets_name_mem _ files a ha
    exact ⟨g, hg, (mem_matchingIDs _ g a.ID).2 ⟨a, List.mem_append_right _ ha, hn, rfl⟩⟩
  have hold : (A.filter (fun a => decide (a.ID ∉ files.flatMap (matchingIDs A)))).filter
      (fun a => decide (a.ID ∉ files.flatMap (matchingIDs
        (A.filter (fun a => decide (a.ID ∉ files.flatMap (matchingIDs A))) ++
          newAssets (freshID A) files)))) =
      A.filter (fun a => decide (a.ID ∉ files.flatMap (matchingIDs A))) := by
    rw [List.filter_eq_self]
    intro a ha
    simp only [decide_eq_true_eq, List.mem_flatMap, not_exists, not_and]
    intro g hg hmem
    obtain ⟨b, hb, hbn, hbid⟩ := (mem_matchingIDs _ g a.ID).1 hmem
    simp only [List.mem_filter, decide_eq_true_eq] at ha
    simp only [List.mem_append, List.mem_filter, decide_eq_true_eq] at hb
    rcases hb with ⟨hbA, hbnot⟩ | hbnew
    · exact hbnot g hg ((mem_matchingIDs A g b.ID).2 ⟨b, hbA, hbn, rfl⟩)
    · have h1 := (newAssets_ids _ files b hbnew).1
      have h2 := freshID_gt A a ha.1
      omega
  rw [hnew, hold, List.append_nil]

/-- Over the modelled release and readable files, the asset names after two
runs of `appendFiles` are, as a list, the asset names after one run. -/
theorem names_after_two_runs (rd : String → Bool) (ex : Option RepositoryRelease)
    (c : Client) (o r : String) (id : Int) (A : List ReleaseAsset) (files : List String)
    (hrd : ∀ f ∈ files, rd f = true) :
    (appendFiles (releaseWorld rd ex) c o r id files
      (appendFiles (releaseWorld rd ex) c o r id files (initRelease A)).st).st.names =
    (appendFiles (releaseWorld rd ex) c o r id files (initRelease A)).st.names := by
  have hA : (initRelease A).assets = A := rfl
  obtain ⟨-, h1⟩ := model_appendFiles rd ex c o r id files (initRelease A) hrd
  rw [hA, fold_reconcileStep A files (initRelease A) (freshID_gt A)] at h1
  obtain ⟨-, h2⟩ := model_appendFiles rd ex c o r id files
    (appendFiles (releaseWorld rd ex) c o r id files (initRelease A)).st hrd
  rw [h2, h1]
  have hL : ∀ a ∈ A.filter (fun a => decide (a.ID ∉ files.flatMap (matchingIDs A))) ++
      newAssets (freshID A) files, a.ID < freshID A + files.length := by
    intro a ha
    simp only [List.mem_append, List.mem_filter] at ha
    rcases ha with ⟨haA, -⟩ | hnew
    · have := freshID_gt A a haA
      omega
    · exact (newAssets_ids _ files a hnew).2
  rw [fold_reconcileStep _ files _ hL]
  simp only [ReleaseState.names, initRelease, List.map_append, newAssets_names,
    second_pass_keeps]

/-! ## The reconciler over the modelled release -/

/-- C3 (as corrected): over the modelled release, for every initial asset list and
every list of local files whose base names are pairwise distinct, after
`appendFiles` returns without error the release holds, for every file of the
list, exactly one asset named with the base name of that file. -/
theorem appendFiles_one_asset_per_file (rd : String → Bool)
    (ex : Option RepositoryRelease) (c : Client) (o r : String) (id : Int)
    (A : List ReleaseAsset) (files : List String)
    (hnd : (files.map pathBase).Nodup)
    (hv : (appendFiles (releaseWorld rd ex) c o r id files (initRelease A)).val = none) :
    ∀ f ∈ files,
      (appendFiles (releaseWorld rd ex) c o r id files (initRelease A)).st.names.count
        (pathBase f) = 1 := by
  intro f hf
  have hrd := model_appendFiles_readable rd ex c o r id files (initRelease A) hv
  obtain ⟨-, hst⟩ := model_appendFiles rd ex c o r id files (initRelease A) hrd
  have hA : (initRelease A).assets = A := rfl
  rw [hst, hA, fold_reconcileStep A files (initRelease A) (freshID_gt A)]
  simp only [ReleaseState.names, initRelease, List.map_append, List.count_append,
    newAssets_names]
  have h1 : List.count (pathBase f) (List.map ReleaseAsset.Name
      (List.filter (fun a => decide (a.ID ∉ files.flatMap (matchingIDs A))) A)) = 0 := by
    rw [List.count_eq_zero]
    intro hmem
    simp only [List.mem_map, List.mem_filter, decide_eq_true_eq] at hmem
    obtain ⟨a, ⟨ha, hnot⟩, hname⟩ := hmem
    apply hnot
    simp only [List.mem_flatMap]
    exact ⟨f, hf, (mem_matchingIDs A f a.ID).2 ⟨a, ha, hname, rfl⟩⟩
  have h2 : List.count (pathBase f) (files.map pathBase) = 1 :=
    List.count_eq_one_of_mem hnd (List.mem_map_of_mem _ hf)
  rw [h1, h2]

theorem appendFiles_one_asset_per_file_witness :
    (demoFiles.map pathBase).Nodup ∧
    (appendFiles demoWorld demoClient "octo" "app" 1 demoFiles (initRelease demoAssets)).val
      = none ∧
    ∀ f ∈ demoFiles,
      (appendFiles demoWorld demoClient "octo" "app" 1 demoFiles
        (initRelease demoAssets)).st.names.count (pathBase f) = 1 :=
  ⟨by decide, by decide,
    appendFiles_one_asset_per_file (fun _ => true) (some ⟨1, "v1.2.0"⟩) demoClient "octo" "app" 1
      demoAssets demoFiles (by decide) (by decide)⟩

/-- C3 (as stated) fails: two local files with the same base name, on a release
without assets, are both uploaded, and the release then holds two assets of that
name although `appendFiles` returned no error. -/
theorem exactly_one_asset_counterexample :
    (appendFiles demoWorld demoClient "octo" "app" 1 ["build/app.zip", "dist/app.zip"]
      (initRelease [])).val = none ∧
    "build/app.zip" ∈ ["build/app.zip", "dist/app.zip"] ∧
    (appendFiles demoWorld demoClient "octo" "app" 1 ["build/app.zip", "dist/app.zip"]
      (initRelease [])).st.names.count (pathBase "build/app.zip") = 2 := by
  decide

/-- C7: over the modelled release, for every initial asset list and every list
of readable local files, `appendFiles` run twice in succession with the same
files returns no error either time and leaves the release with the same set of
asset names as one run. -/
theorem appendFiles_idempotent (rd : String → Bool) (ex : Option RepositoryRelease)
    (c : Client) (o r : String) (id : Int) (A : List ReleaseAsset) (files : List String)
    (hrd : ∀ f ∈ files, rd f = true) :
    (appendFiles (releaseWorld rd ex) c o r id files (initRelease A)).val = none ∧
    (appendFiles (releaseWorld rd ex) c o r id files
      (appendFiles (releaseWorld rd ex) c o r id files (initRelease A)).st).val = none ∧
    (appendFiles (releaseWorld rd ex) c o r id files
      (appendFiles (releaseWorld rd ex) c o r id files (initRelease A)).st).st.names.toFinset =
    (appendFiles (releaseWorld rd ex) c o r id files (initRelease A)).st.names.toFinset := by
  refine ⟨(model_appendFiles rd ex c o r id files _ hrd).1,
    (model_appendFiles rd ex c o r id files _ hrd).1, ?_⟩
  rw [names_after_two_runs rd ex c o r id A files hrd]

theorem appendFiles_idempotent_witness :
    (∀ f ∈ demoFiles, (fun _ => true : String → Bool) f = true) ∧
    (appendFiles demoWorld demoClient "octo" "app" 1 demoFiles
      (appendFiles demoWorld demoClient "octo" "app" 1 demoFiles
        (initRelease demoAssets)).st).st.names.toFinset =
    (appendFiles demoWorld demoClient "octo" "app" 1 demoFiles
      (initRelease demoAssets)).st.names.toFinset :=
  ⟨by decide,
    (appendFiles_idempotent (fun _ => true) (some ⟨1, "v1.2.0"⟩) demoClient "octo" "app" 1
      demoAssets demoFiles (by decide)).2.2⟩

/-! ## The entry point: `main` -/

theorem length_eq_zero_iff (u : String) : u.length = 0 ↔ u = "" := by
  constructor
  · intro h
    apply String.ext
    have : u.data.length = 0 := h
    exact List.length_eq_zero.1 this
  · intro h; subst h; rfl

theorem main_trigger_gate_eq (w : World σ) (r : Repo) (b : Build) (v : Params) (s : σ)
    (h : b.Event ≠ "tag") :
    main w r b v s =
      ⟨.status 0,
        [⟨none, .print "The GitHub Release plugin is only available for tags\n", true⟩],
        s, none⟩ := by
  simp [main, h]

theorem effectiveUploadUrl_mk (v : Params) (x y : String) (z : List String) :
    effectiveUploadUrl ⟨x, v.UploadUrl, y, z⟩ = effectiveUploadUrl v := rfl

/-- The entries `main` logs before it resolves the release. -/
theorem main_no_key (w : World σ) (r : Repo) (b : Build) (v : Params) (s : σ)
    (h1 : b.Event = "tag") (h2 : v.APIKey.length = 0) :
    main w r b v s =
      ⟨.status 1, [⟨none, .print "You must provide an API key\n", true⟩], s, none⟩ := by
  simp [main, h1, h2]

theorem main_glob_error (w : World σ) (r : Repo) (b : Build) (v : Params) (s : σ) (g : String)
    (h1 : b.Event = "tag") (h2 : ¬ v.APIKey.length = 0)
    (h3 : globAll w s v.Files [] = .error g) :
    main w r b v s =
      ⟨.status 1,
        globLog w s v.Files ++ [⟨none, .print ("Failed to glob " ++ g ++ "\n"), true⟩],
        s, none⟩ := by
  simp [main, h1, h2, h3]

theorem main_base_error (w : World σ) (r : Repo) (b : Build) (v : Params) (s : σ)
    (files : List String)
    (h1 : b.Event = "tag") (h2 : ¬ v.APIKey.length = 0)
    (h3 : globAll w s v.Files [] = .ok files)
    (h4 : w.urlParse (effectiveBaseUrl v) = false) :
    main w r b v s =
      ⟨.status 1,
        globLog w s v.Files ++
          [⟨none, .urlParse (effectiveBaseUrl v), false⟩,
           ⟨none, .print "Failed to parse base URL\n", true⟩], s, none⟩ := by
  simp [main, h1, h2, h3, h4]

theorem main_upload_error (w : World σ) (r : Repo) (b : Build) (v : Params) (s : σ)
    (files : List String)
    (h1 : b.Event = "tag") (h2 : ¬ v.APIKey.length = 0)
    (h3 : globAll w s v.Files [] = .ok files)
    (h4 : w.urlParse (effectiveBaseUrl v) = true)
    (h5 : w.urlParse (effectiveUploadUrl v) = false) :
    main w r b v s =
      ⟨.status 1,
        globLog w s v.Files ++
          [⟨none, .urlParse (effectiveBaseUrl v), true⟩,
           ⟨none, .urlParse (effectiveUploadUrl v), false⟩,
           ⟨none, .print "Failed to parse upload URL\n", true⟩], s, none⟩ := by
  simp [main, h1, h2, h3, h4, h5, effectiveUploadUrl_mk]

theorem main_lookup_error (w : World σ) (r : Repo) (b : Build) (v : Params) (s : σ)
    (files : List String)
    (h1 : b.Event = "tag") (h2 : ¬ v.APIKey.length = 0)
    (h3 : globAll w s v.Files [] = .ok files)
    (h4 : w.urlParse (effectiveBaseUrl v) = true)
    (h5 : w.urlParse (effectiveUploadUrl v) = true)
    (h6 : (w.getReleaseByTag s (mainClient v) r.Owner r.Name (filepathBase b.Ref)).err = true) :
    main w r b v s =
      ⟨.status 1,
        mainPrelude w v s ++
          [⟨none, .getReleaseByTag r.Owner r.Name (filepathBase b.Ref), false⟩] ++
          [⟨none, .print ("Failed to retrieve release" ++ "\n"), true⟩],
        (w.getReleaseByTag s (mainClient v) r.Owner r.Name (filepathBase b.Ref)).st,
        some (mainClient v)⟩ := by
  simp only [mainClient] at h6
  simp [main, h1, h2, h3, h4, h5, effectiveUploadUrl_mk, retrieveRelease, h6, mainPrelude,
    mainClient]

theorem main_lookup_nil (w : World σ) (r : Repo) (b : Build) (v : Params) (s : σ)
    (files : List String)
    (h1 : b.Event = "tag") (h2 : ¬ v.APIKey.length = 0)
    (h3 : globAll w s v.Files [] = .ok files)
    (h4 : w.urlParse (effectiveBaseUrl v) = true)
    (h5 : w.urlParse (effectiveUploadUrl v) = true)
    (h6 : (w.getReleaseByTag s (mainClient v) r.Owner r.Name (filepathBase b.Ref)).err = false)
    (h7 : (w.getReleaseByTag s (mainClient v) r.Owner r.Name (filepathBase b.Ref)).val = none) :
    main w r b v s =
      ⟨.nilPanic,
        mainPrelude w v s ++
          [⟨none, .getReleaseByTag r.Owner r.Name (filepathBase b.Ref), true⟩,
           ⟨none, .print ("Successfully retrieved " ++ filepathBase b.Ref ++ " release\n"),
             true⟩],
        (w.getReleaseByTag s (mainClient v) r.Owner r.Name (filepathBase b.Ref)).st,
        some (mainClient v)⟩ := by
  simp only [mainClient] at h6 h7
  simp [main, h1, h2, h3, h4, h5, effectiveUploadUrl_mk, retrieveRelease, h6, h7, mainPrelude,
    mainClient]

theorem main_lookup_found (w : World σ) (r : Repo) (b : Build) (v : Params) (s : σ)
    (files : List String) (rel : RepositoryRelease)
    (h1 : b.Event = "tag") (h2 : ¬ v.APIKey.length = 0)
    (h3 : globAll w s v.Files [] = .ok files)
    (h4 : w.urlParse (effectiveBaseUrl v) = true)
    (h5 : w.urlParse (effectiveUploadUrl v) = true)
    (h6 : (w.getReleaseByTag s (mainClient v) r.Owner r.Name (filepathBase b.Ref)).err = false)
    (h7 : (w.getReleaseByTag s (mainClient v) r.Owner r.Name (filepathBase b.Ref)).val =
      some rel) :
    (main w r b v s).log =
      mainPrelude w v s ++
        [⟨none, .getReleaseByTag r.Owner r.Name (filepathBase b.Ref), true⟩,
         ⟨none, .print ("Successfully retrieved " ++ filepathBase b.Ref ++ " release\n"),
           true⟩] ++
        (appendFiles w (mainClient v) r.Owner r.Name rel.ID files
          (w.getReleaseByTag s (mainClient v) r.Owner r.Name (filepathBase b.Ref)).st).log ++
        (match (appendFiles w (mainClient v) r.Owner r.Name rel.ID files
            (w.getReleaseByTag s (mainClient v) r.Owner r.Name (filepathBase b.Ref)).st).val with
          | some uploadErr => [⟨none, .print (uploadErr ++ "\n"), true⟩]
          | none => []) ∧
    (main w r b v s).exit =
      (match (appendFiles w (mainClient v) r.Owner r.Name rel.ID files
          (w.getReleaseByTag s (mainClient v) r.Owner r.Name (filepathBase b.Ref)).st).val with
        | some _ => Exit.status 1
        | none => Exit.status 0) ∧
    (main w r b v s).client = some (mainClient v) := by
  simp only [mainClient] at h6 h7
  cases ha : (appendFiles w ⟨effectiveBaseUrl v, effectiveUploadUrl v, v.APIKey⟩ r.Owner r.Name
      rel.ID files (w.getReleaseByTag s ⟨effectiveBaseUrl v, effectiveUploadUrl v, v.APIKey⟩
        r.Owner r.Name (filepathBase b.Ref)).st).val <;>
    simp [main, h1, h2, h3, h4, h5, effectiveUploadUrl_mk, retrieveRelease, h6, h7, mainPrelude,
      mainClient, ha]

theorem globLog_local (w : World σ) (s : σ) (pats : List String) :
    ∀ e ∈ globLog w s pats, e.call.isLocal = true := by
  induction pats with
  | nil => intro e he; simp [globLog] at he
  | cons g rest ih =>
    intro e he
    simp only [globLog] at he
    split at he
    · simp at he; subst he; rfl
    · simp only [List.mem_cons] at he
      rcases he with h | h
      · subst h; rfl
      · exact ih e h

theorem mainPrelude_local (w : World σ) (v : Params) (s : σ) :
    ∀ e ∈ mainPrelude w v s, e.call.isLocal = true := by
  intro e he
  simp only [mainPrelude, List.mem_append, List.mem_cons, List.not_mem_nil, or_false] at he
  rcases he with h | h | h
  · exact globLog_local w s v.Files e h
  · subst h; rfl
  · subst h; rfl

/-- Every entry of the log of `main` is a local call, the lookup of the release
of the tag, or an entry of `appendFiles` run on the release the lookup found. -/
theorem main_log_entry (w : World σ) (r : Repo) (b : Build) (v : Params) (s : σ) :
    ∀ e ∈ (main w r b v s).log,
      e.call.isLocal = true ∨
      e.call = Call.getReleaseByTag r.Owner r.Name (filepathBase b.Ref) ∨
      ∃ files rel,
        (w.getReleaseByTag s (mainClient v) r.Owner r.Name (filepathBase b.Ref)).err = false ∧
        (w.getReleaseByTag s (mainClient v) r.Owner r.Name (filepathBase b.Ref)).val =
          some rel ∧
        e ∈ (appendFiles w (mainClient v) r.Owner r.Name rel.ID files
          (w.getReleaseByTag s (mainClient v) r.Owner r.Name (filepathBase b.Ref)).st).log := by
  intro e he
  have hpre := mainPrelude_local w v s
  have hglob := globLog_local w s v.Files
  by_cases h1 : b.Event = "tag"
  swap
  · rw [(main_trigger_gate_eq w r b v s h1)] at he
    simp only [List.mem_singleton] at he
    subst he; exact Or.inl rfl
  by_cases h2 : v.APIKey.length = 0
  · rw [main_no_key w r b v s h1 h2] at he
    simp only [List.mem_singleton] at he
    subst he; exact Or.inl rfl
  cases h3 : globAll w s v.Files [] with
  | error g =>
    rw [main_glob_error w r b v s g h1 h2 h3] at he
    simp only [List.mem_append, List.mem_singleton] at he
    rcases he with h | h
    · exact Or.inl (hglob e h)
    · subst h; exact Or.inl rfl
  | ok files =>
    cases h4 : w.urlParse (effectiveBaseUrl v) with
    | false =>
      rw [main_base_error w r b v s files h1 h2 h3 h4] at he
      simp only [List.mem_append, List.mem_cons, List.not_mem_nil, or_false] at he
      rcases he with h | h | h
      · exact Or.inl (hglob e h)
      · subst h; exact Or.inl rfl
      · subst h; exact Or.inl rfl
    | true =>
      cases h5 : w.urlParse (effectiveUploadUrl v) with
      | false =>
        rw [main_upload_error w r b v s files h1 h2 h3 h4 h5] at he
        simp only [List.mem_append, List.mem_cons, List.not_mem_nil, or_false] at he
        rcases he with h | h | h | h
        · exact Or.inl (hglob e h)
        · subst h; exact Or.inl rfl
        · subst h; exact Or.inl rfl
        · subst h; exact Or.inl rfl
      | true =>
        cases h6 : (w.getReleaseByTag s (mainClient v) r.Owner r.Name
            (filepathBase b.Ref)).err with
        | true =>
          rw [main_lookup_error w r b v s files h1 h2 h3 h4 h5 h6] at he
          simp only [List.mem_append, List.mem_cons, List.not_mem_nil, or_false] at he
          rcases he with (h | h) | h
          · exact Or.inl (hpre e h)
          · subst h; exact Or.inr (Or.inl rfl)
          · subst h; exact Or.inl rfl
        | false =>
          cases h7 : (w.getReleaseByTag s (mainClient v) r.Owner r.Name
              (filepathBase b.Ref)).val with
          | none =>
            rw [main_lookup_nil w r b v s files h1 h2 h3 h4 h5 h6 h7] at he
            simp only [List.mem_append, List.mem_cons, List.not_mem_nil, or_false] at he
            rcases he with h | h | h
            · exact Or.inl (hpre e h)
            · subst h; exact Or.inr (Or.inl rfl)
            · subst h; exact Or.inl rfl
          | some rel =>
            rw [(main_lookup_found w r b v s files rel h1 h2 h3 h4 h5 h6 h7).1] at he
            simp only [List.mem_append, List.mem_cons, List.not_mem_nil, or_false] at he
            rcases he with ((h | h | h) | h) | h
            · exact Or.inl (hpre e h)
            · subst h; exact Or.inr (Or.inl rfl)
            · subst h; exact Or.inl rfl
            · exact Or.inr (Or.inr ⟨files, rel, rfl, rfl, h⟩)
            · split at h
              · simp only [List.mem_singleton] at h
                subst h; exact Or.inl rfl
              · simp at h

/-- The client of `main`, when it configures one, is the client on the normalized
endpoints. -/
theorem main_client (w : World σ) (r : Repo) (b : Build) (v : Params) (s : σ) (cl : Client)
    (h : (main w r b v s).client = some cl) : cl = mainClient v := by
  by_cases h1 : b.Event = "tag"
  swap
  · rw [main_trigger_gate_eq w r b v s h1] at h; simp at h
  by_cases h2 : v.APIKey.length = 0
  · rw [main_no_key w r b v s h1 h2] at h; simp at h
  cases h3 : globAll w s v.Files [] with
  | error g => rw [main_glob_error w r b v s g h1 h2 h3] at h; simp at h
  | ok files =>
    cases h4 : w.urlParse (effectiveBaseUrl v) with
    | false => rw [main_base_error w r b v s files h1 h2 h3 h4] at h; simp at h
    | true =>
      cases h5 : w.urlParse (effectiveUploadUrl v) with
      | false => rw [main_upload_error w r b v s files h1 h2 h3 h4 h5] at h; simp at h
      | true =>
        cases h6 : (w.getReleaseByTag s (mainClient v) r.Owner r.Name
            (filepathBase b.Ref)).err with
        | true =>
          rw [main_lookup_error w r b v s files h1 h2 h3 h4 h5 h6] at h
          simp only [Option.some.injEq] at h
          exact h.symm
        | false =>
          cases h7 : (w.getReleaseByTag s (mainClient v) r.Owner r.Name
              (filepathBase b.Ref)).val with
          | none =>
            rw [main_lookup_nil w r b v s files h1 h2 h3 h4 h5 h6 h7] at h
            simp only [Option.some.injEq] at h
            exact h.symm
          | some rel =>
            rw [(main_lookup_found w r b v s files rel h1 h2 h3 h4 h5 h6 h7).2.2] at h
            simp only [Option.some.injEq] at h
            exact h.symm

/-- The normalization of lines 45-59 of `main`, for either endpoint. -/
theorem normalize_cases (u dflt : String) :
    (u = "" → (if u.length = 0 then dflt
      else if !HasSuffix u "/" then u ++ "/" else u) = dflt) ∧
    (endsWithSlash u → (if u.length = 0 then dflt
      else if !HasSuffix u "/" then u ++ "/" else u) = u) ∧
    (u ≠ "" → ¬ endsWithSlash u → (if u.length = 0 then dflt
      else if !HasSuffix u "/" then u ++ "/" else u) = u ++ "/") := by
  refine ⟨?_, ?_, ?_⟩
  · intro h; subst h; rfl
  · intro h
    have hs : HasSuffix u "/" = true := (HasSuffix_slash u).2 h
    have hne : ¬ u.length = 0 := by
      intro h0
      rw [(length_eq_zero_iff u).1 h0] at h
      simp [endsWithSlash] at h
    simp [hne, hs]
  · intro hne hns
    have hs : HasSuffix u "/" = false := by
      cases hh : HasSuffix u "/" with
      | false => rfl
      | true => exact absurd ((HasSuffix_slash u).1 hh) hns
    have hl : ¬ u.length = 0 := fun h0 => hne ((length_eq_zero_iff u).1 h0)
    simp [hl, hs]

/-- C10: for every build whose event is not "tag", whatever the repository, the
parameters and the world, `main` ends with exit status 0 after printing one
message: it makes no remote call, no glob, no URL parse and no file open,
configures no client, and leaves the state as it was. -/
theorem main_trigger_gate (w : World σ) (r : Repo) (b : Build) (v : Params) (s : σ)
    (h : b.Event ≠ "tag") :
    (main w r b v s).exit = Exit.status 0 ∧
    remoteCalls (main w r b v s).log = [] ∧
    (main w r b v s).log =
      [⟨none, .print "The GitHub Release plugin is only available for tags\n", true⟩] ∧
    (main w r b v s).st = s ∧
    (main w r b v s).client = none := by
  simp [main, h, remoteCalls, Call.isRemote]

theorem main_trigger_gate_witness :
    (⟨"push", "refs/heads/master"⟩ : Build).Event ≠ "tag" ∧
    (main freshTagWorld ⟨"octo", "app"⟩ ⟨"push", "refs/heads/master"⟩
      ⟨"::not a url", "", "", ["dist/*"]⟩ (initRelease demoAssets)).exit = Exit.status 0 ∧
    remoteCalls (main freshTagWorld ⟨"octo", "app"⟩ ⟨"push", "refs/heads/master"⟩
      ⟨"::not a url", "", "", ["dist/*"]⟩ (initRelease demoAssets)).log = [] :=
  ⟨by decide,
    (main_trigger_gate freshTagWorld ⟨"octo", "app"⟩ ⟨"push", "refs/heads/master"⟩
      ⟨"::not a url", "", "", ["dist/*"]⟩ (initRelease demoAssets) (by decide)).1,
    (main_trigger_gate freshTagWorld ⟨"octo", "app"⟩ ⟨"push", "refs/heads/master"⟩
      ⟨"::not a url", "", "", ["dist/*"]⟩ (initRelease demoAssets) (by decide)).2.1⟩

/-! ## The release resolver -/

/-- C8: when the lookup by tag returns a release without error, `prepareRelease`
returns exactly that release and no error after the one lookup call, and makes
no create-release call; and `main`, whose lookup for the tag of the build
returns a release, makes no create-release call and lists the assets of exactly
that release. -/
theorem lookup_success_no_create (w : World σ) :
    (∀ (c : Client) (o rp tag : String) (s : σ) (rel : RepositoryRelease),
      (w.getReleaseByTag s c o rp tag).err = false →
      (w.getReleaseByTag s c o rp tag).val = some rel →
      (prepareRelease w c o rp tag s).val = (some rel, none) ∧
      remoteCalls (prepareRelease w c o rp tag s).log = [Call.getReleaseByTag o rp tag] ∧
      ∀ e ∈ (prepareRelease w c o rp tag s).log, e.call.isCreate = false) ∧
    (∀ (r : Repo) (b : Build) (v : Params) (s : σ) (rel : RepositoryRelease),
      (w.getReleaseByTag s (mainClient v) r.Owner r.Name (filepathBase b.Ref)).err = false →
      (w.getReleaseByTag s (mainClient v) r.Owner r.Name (filepathBase b.Ref)).val =
        some rel →
      ∀ e ∈ (main w r b v s).log, e.call.isCreate = false ∧
        ∀ o2 r2 id, e.call = Call.listReleaseAssets o2 r2 id →
          o2 = r.Owner ∧ r2 = r.Name ∧ id = rel.ID) := by
  constructor
  · intro c o rp tag s rel herr hval
    have hr : retrieveRelease w c o rp tag s =
        ⟨(some rel, none),
          [⟨none, .getReleaseByTag o rp tag, true⟩,
           ⟨none, .print ("Successfully retrieved " ++ tag ++ " release\n"), true⟩],
          (w.getReleaseByTag s c o rp tag).st⟩ := by
      simp [retrieveRelease, herr, hval]
    have hp : prepareRelease w c o rp tag s =
        ⟨(some rel, none),
          [⟨none, .getReleaseByTag o rp tag, true⟩,
           ⟨none, .print ("Successfully retrieved " ++ tag ++ " release\n"), true⟩],
          (w.getReleaseByTag s c o rp tag).st⟩ := by
      simp only [prepareRelease, hr]
    rw [hp]
    refine ⟨rfl, by simp [remoteCalls, Call.isRemote], ?_⟩
    intro e he
    simp only [List.mem_cons, List.not_mem_nil, or_false] at he
    rcases he with h | h <;> subst h <;> rfl
  · intro r b v s rel herr hval e he
    rcases main_log_entry w r b v s e he with h | h | ⟨files, rel2, -, hval2, hmem⟩
    · constructor
      · cases hc : e.call <;> simp [hc, Call.isLocal, Call.isCreate] at h ⊢
      · intro o2 r2 id hc
        simp [hc, Call.isLocal] at h
    · constructor
      · rw [h]; rfl
      · intro o2 r2 id hc
        rw [hc] at h; simp at h
    · rw [hval] at hval2
      simp only [Option.some.injEq] at hval2
      subst hval2
      rcases appendFiles_log_kinds w (mainClient v) r.Owner r.Name rel.ID files _ e hmem with
        h | h
      · constructor
        · rw [h]; rfl
        · intro o2 r2 id hc
          rw [hc] at h
          simp only [Call.listReleaseAssets.injEq] at h
          exact h
      · constructor
        · cases hc : e.call <;> simp [hc, Call.isLoopCall, Call.isCreate] at h ⊢
        · intro o2 r2 id hc
          simp [hc, Call.isLoopCall] at h

theorem lookup_success_no_create_witness :
    (demoWorld.getReleaseByTag (initRelease demoAssets) demoClient "octo" "app" "v1.2.0").err
      = false ∧
    (demoWorld.getReleaseByTag (initRelease demoAssets) demoClient "octo" "app" "v1.2.0").val
      = some ⟨1, "v1.2.0"⟩ ∧
    (prepareRelease demoWorld demoClient "octo" "app" "v1.2.0" (initRelease demoAssets)).val =
      (some ⟨1, "v1.2.0"⟩, none) ∧
    remoteCalls (prepareRelease demoWorld demoClient "octo" "app" "v1.2.0"
      (initRelease demoAssets)).log = [Call.getReleaseByTag "octo" "app" "v1.2.0"] ∧
    remoteCalls (main demoWorld ⟨"octo", "app"⟩ ⟨"tag", "refs/tags/v1.2.0"⟩
      ⟨"", "", "secret", demoFiles⟩ (initRelease demoAssets)).log =
      [Call.getReleaseByTag "octo" "app" "v1.2.0",
       Call.listReleaseAssets "octo" "app" 1,
       Call.deleteReleaseAsset "octo" "app" 11,
       Call.uploadReleaseAsset "octo" "app" 1 "app.tar.gz" "dist/app.tar.gz",
       Call.uploadReleaseAsset "octo" "app" 1 "app.sha256" "dist/app.sha256"] ∧
    ∀ e ∈ (main demoWorld ⟨"octo", "app"⟩ ⟨"tag", "refs/tags/v1.2.0"⟩
      ⟨"", "", "secret", demoFiles⟩ (initRelease demoAssets)).log, e.call.isCreate = false :=
  ⟨by decide, by decide,
    ((lookup_success_no_create demoWorld).1 demoClient "octo" "app" "v1.2.0"
      (initRelease demoAssets) ⟨1, "v1.2.0"⟩ (by decide) (by decide)).1,
    ((lookup_success_no_create demoWorld).1 demoClient "octo" "app" "v1.2.0"
      (initRelease demoAssets) ⟨1, "v1.2.0"⟩ (by decide) (by decide)).2.1,
    by decide,
    fun e he => ((lookup_success_no_create demoWorld).2 ⟨"octo", "app"⟩
      ⟨"tag", "refs/tags/v1.2.0"⟩ ⟨"", "", "secret", demoFiles⟩ (initRelease demoAssets)
      ⟨1, "v1.2.0"⟩ (by decide) (by decide) e he).1⟩

/-- C1 fails on the code: in the world where the tag has no release (the lookup
returns an error and a creation would succeed), `prepareRelease` returns the
error "Failed to retrieve release" and `main` exits with status 1, each after the
single lookup call and without any create-release call. -/
theorem lookup_failure_makes_no_create :
    (freshTagWorld.getReleaseByTag (initRelease []) demoClient "octo" "app" "v1.2.0").err
      = true ∧
    (freshTagWorld.createRelease (initRelease []) demoClient "octo" "app" "v1.2.0").err
      = false ∧
    (prepareRelease freshTagWorld demoClient "octo" "app" "v1.2.0" (initRelease [])).val =
      (none, some "Failed to retrieve release") ∧
    remoteCalls (prepareRelease freshTagWorld demoClient "octo" "app" "v1.2.0"
      (initRelease [])).log = [Call.getReleaseByTag "octo" "app" "v1.2.0"] ∧
    (main freshTagWorld ⟨"octo", "app"⟩ ⟨"tag", "refs/tags/v1.2.0"⟩
      ⟨"", "", "secret", demoFiles⟩ (initRelease [])).exit = Exit.status 1 ∧
    remoteCalls (main freshTagWorld ⟨"octo", "app"⟩ ⟨"tag", "refs/tags/v1.2.0"⟩
      ⟨"", "", "secret", demoFiles⟩ (initRelease [])).log =
      [Call.getReleaseByTag "octo" "app" "v1.2.0"] := by
  decide

/-! ## Endpoint normalization -/

/-- C9: the effective base endpoint and the effective upload endpoint of `main`
are the default ("https://api.github.com/", "https://uploads.github.com/") when
the configured string is empty, the configured string itself when it ends with
"/", and the configured string followed by one "/" when it is non-empty and does
not end with "/"; and the client `main` configures carries these two endpoints. -/
theorem endpoint_normalization (w : World σ) (r : Repo) (b : Build) (v : Params) (s : σ) :
    (v.BaseUrl = "" → effectiveBaseUrl v = "https://api.github.com/") ∧
    (endsWithSlash v.BaseUrl → effectiveBaseUrl v = v.BaseUrl) ∧
    (v.BaseUrl ≠ "" → ¬ endsWithSlash v.BaseUrl → effectiveBaseUrl v = v.BaseUrl ++ "/") ∧
    (v.UploadUrl = "" → effectiveUploadUrl v = "https://uploads.github.com/") ∧
    (endsWithSlash v.UploadUrl → effectiveUploadUrl v = v.UploadUrl) ∧
    (v.UploadUrl ≠ "" → ¬ endsWithSlash v.UploadUrl →
      effectiveUploadUrl v = v.UploadUrl ++ "/") ∧
    (∀ cl, (main w r b v s).client = some cl →
      cl.BaseURL = effectiveBaseUrl v ∧ cl.UploadURL = effectiveUploadUrl v) := by
  obtain ⟨b1, b2, b3⟩ := normalize_cases v.BaseUrl "https://api.github.com/"
  obtain ⟨u1, u2, u3⟩ := normalize_cases v.UploadUrl "https://uploads.github.com/"
  refine ⟨b1, b2, b3, u1, u2, u3, ?_⟩
  intro cl hcl
  rw [main_client w r b v s cl hcl]
  exact ⟨rfl, rfl⟩

theorem endpoint_normalization_witness :
    ("https://ghe.example.com/api/v3" : String) ≠ "" ∧
    ¬ endsWithSlash "https://ghe.example.com/api/v3" ∧
    endsWithSlash "https://ghe.example.com/uploads/" ∧
    effectiveBaseUrl ⟨"https://ghe.example.com/api/v3", "https://ghe.example.com/uploads/",
      "secret", demoFiles⟩ = "https://ghe.example.com/api/v3" ++ "/" ∧
    effectiveUploadUrl ⟨"https://ghe.example.com/api/v3", "https://ghe.example.com/uploads/",
      "secret", demoFiles⟩ = "https://ghe.example.com/uploads/" ∧
    effectiveBaseUrl ⟨"", "", "secret", demoFiles⟩ = "https://api.github.com/" ∧
    (main demoWorld ⟨"octo", "app"⟩ ⟨"tag", "refs/tags/v1.2.0"⟩
      ⟨"https://ghe.example.com/api/v3", "https://ghe.example.com/uploads/", "secret",
        demoFiles⟩ (initRelease demoAssets)).client =
      some ⟨"https://ghe.example.com/api/v3/", "https://ghe.example.com/uploads/", "secret"⟩ :=
  ⟨by decide, by decide, by decide,
    (endpoint_normalization demoWorld ⟨"octo", "app"⟩ ⟨"tag", "refs/tags/v1.2.0"⟩
      ⟨"https://ghe.example.com/api/v3", "https://ghe.example.com/uploads/", "secret",
        demoFiles⟩ (initRelease demoAssets)).2.2.1 (by decide) (by decide),
    (endpoint_normalization demoWorld ⟨"octo", "app"⟩ ⟨"tag", "refs/tags/v1.2.0"⟩
      ⟨"https://ghe.example.com/api/v3", "https://ghe.example.com/uploads/", "secret",
        demoFiles⟩ (initRelease demoAssets)).2.2.2.2.1 (by decide),
    (endpoint_normalization demoWorld ⟨"octo", "app"⟩ ⟨"tag", "refs/tags/v1.2.0"⟩
      ⟨"", "", "secret", demoFiles⟩ (initRelease demoAssets)).1 rfl,
    by decide⟩

end GithubRelease
